import Mathlib

/-!
# Verification of the versioned observable store of `react-data-table`

This file is a shallow embedding, in Lean 4, of the state-management core of
the `react-data-table` package:

* `src/utils/object.util.ts` — the structural utilities `deepClone`,
  `deepEqual`, `isPlainObject`, `deepMerge`;
* the singleton store factory `createDataStore` (mutation, change detection,
  debounced history snapshotting, undo/redo/rollback, reset);
* the context store factory `createContextStore` in
  `src/providers/context.provider.tsx` (mutation, persistence hydration).

JavaScript runtime values are modelled by the inductive type `JSValue`
(JSON-like data: `null`, `undefined`, booleans, numbers, strings, arrays,
and plain objects given as ordered key/value lists).  Numbers are modelled
as integers; none of the verified properties involves floating point.
Functions attached to updates are modelled explicitly where the store API
accepts them.  Reference (pointer) identity is not part of this value model;
a separate heap model near the end of the file is used for the aliasing /
freshness property of `getHistory`.
-/

/-- A JavaScript runtime value, restricted to the JSON-like data the store
manages: `null`, `undefined`, booleans, (integer) numbers, strings, arrays
and plain objects.  An object is an ordered list of key/value fields, matching
JS property insertion order; real JS objects never carry a duplicate key, which
is captured where needed by the well-formedness predicate `JSValue.WF`. -/
inductive JSValue where
  | null
  | undefined
  | bool (b : Bool)
  | num (n : Int)
  | str (s : String)
  | arr (elems : List JSValue)
  | obj (fields : List (String × JSValue))

/-- `typeof v === "object"` — true for `null`, arrays and objects. -/
def typeofObject : JSValue → Bool
  | .null | .arr _ | .obj _ => true
  | _ => false

/-- `v == null` (loose equality) — true exactly for `null` and `undefined`. -/
def isNullish : JSValue → Bool
  | .null | .undefined => true
  | _ => false

/-- `v === undefined`. -/
def isUndefined : JSValue → Bool
  | .undefined => true
  | _ => false

/-- JS strict equality `===` on the modelled values, restricted to the part
that is determined by the value alone: on primitives it is value equality; on
arrays and objects `===` is reference equality, which the pure value model
cannot observe, so it is conservatively `false` here.  In `deepEqual` this is
sound: when two object references are identical the structural comparison the
function falls through to returns `true` as well (for well-formed values). -/
def strictEq : JSValue → JSValue → Bool
  | .null, .null => true
  | .undefined, .undefined => true
  | .bool a, .bool b => a == b
  | .num a, .num b => a == b
  | .str a, .str b => a == b
  | _, _ => false

/-- The own enumerable entries of a value, in property order, as delivered by
`Object.keys` / property enumeration: an object yields its fields, an array
yields its elements keyed by their decimal index (the `length` property of a
JS array is not enumerable, so it does not appear), anything else has none. -/
def jsEntries : JSValue → List (String × JSValue)
  | .arr xs => xs.enum.map fun p => (toString p.1, p.2)
  | .obj fs => fs
  | _ => []

/-- `Object.keys v`. -/
def jsKeys (v : JSValue) : List String :=
  (jsEntries v).map Prod.fst

/-- Property read `v[k]`: the value of the first entry named `k`, and
`undefined` when there is none. -/
def jsGet (v : JSValue) (k : String) : JSValue :=
  match (jsEntries v).find? (fun p => p.1 == k) with
  | some p => p.2
  | none => .undefined

/-- Replace the value of the first field named `k`, keeping its position, or
append a new field — JS property-assignment order semantics. -/
def setField : List (String × JSValue) → String → JSValue → List (String × JSValue)
  | [], k, x => [(k, x)]
  | (k', v') :: rest, k, x =>
      if k' == k then (k', x) :: rest else (k', v') :: setField rest k x

/-- Property write `v[k] = x`.  On an object this replaces or appends the
field; on an array it replaces the element when `k` is an in-range decimal
index (the store never writes other keys into an array); on a primitive the
write has no observable effect on the value.  The verified store flows only
ever write into plain objects. -/
def jsSet (v : JSValue) (k : String) (x : JSValue) : JSValue :=
  match v with
  | .obj fs => .obj (setField fs k x)
  | .arr xs =>
      match (List.range xs.length).find? (fun i => toString i == k) with
      | some i => .arr (xs.set i x)
      | none => v
  | _ => v

mutual

/-- Well-formed values: no object (at any depth) carries a duplicate key.
Every value produced by a real JS runtime satisfies this. -/
def JSValue.WF : JSValue → Prop
  | .arr xs => JSValue.WFElems xs
  | .obj fs => (fs.map Prod.fst).Nodup ∧ JSValue.WFFields fs
  | _ => True

def JSValue.WFElems : List JSValue → Prop
  | [] => True
  | x :: xs => JSValue.WF x ∧ JSValue.WFElems xs

def JSValue.WFFields : List (String × JSValue) → Prop
  | [] => True
  | (_, v) :: rest => JSValue.WF v ∧ JSValue.WFFields rest

end

mutual

/-- `deepEqual` from `src/utils/object.util.ts`.  The `source === destination`
fast path is modelled by `strictEq`; then `null`/non-object operands are
rejected, arrays are compared explicitly only when *both* operands are arrays,
and otherwise the operands are compared through their own enumerable keys
(`Object.keys` length equality, membership, and recursive value comparison). -/
def deepEqual (source destination : JSValue) : Bool :=
  if strictEq source destination then true
  else if isNullish source || !typeofObject source
      || isNullish destination || !typeofObject destination then false
  else
    match source, destination with
    | .arr xs, .arr ys =>
        (xs.length == ys.length) && deepEqualElems xs ys
    | .obj fs, d =>
        ((jsKeys (.obj fs)).length == (jsKeys d).length) && deepEqualFields fs d
    | .arr xs, d =>
        ((jsKeys (.arr xs)).length == (jsKeys d).length) && deepEqualIndexed xs 0 d
    | _, _ => false

/-- `source.every((item, index) => deepEqual(item, destination[index]))` for
the both-arrays branch (lengths already known equal). -/
def deepEqualElems : List JSValue → List JSValue → Bool
  | [], _ => true
  | _ :: _, [] => false
  | x :: xs, y :: ys => deepEqual x y && deepEqualElems xs ys

/-- `sourceKeys.every(key => destinationKeys.includes(key) &&
deepEqual(sourceObj[key], destinationObj[key]))`, walking an object source. -/
def deepEqualFields : List (String × JSValue) → JSValue → Bool
  | [], _ => true
  | (k, v) :: rest, d =>
      ((jsKeys d).contains k && deepEqual v (jsGet d k)) && deepEqualFields rest d

/-- The same key walk for an array source that fell through to the object
branch (its keys are the decimal indices). -/
def deepEqualIndexed : List JSValue → Nat → JSValue → Bool
  | [], _, _ => true
  | x :: xs, i, d =>
      ((jsKeys d).contains (toString i) && deepEqual x (jsGet d (toString i)))
        && deepEqualIndexed xs (i + 1) d

end

mutual

/-- `deepClonePolyfill` from `src/utils/object.util.ts`: primitives and `null`
are returned as-is, arrays clone their elements, objects copy their own
fields recursively. -/
def deepClonePolyfill : JSValue → JSValue
  | .arr xs => .arr (deepCloneElems xs)
  | .obj fs => .obj (deepCloneFields fs)
  | v => v

def deepCloneElems : List JSValue → List JSValue
  | [] => []
  | x :: xs => deepClonePolyfill x :: deepCloneElems xs

def deepCloneFields : List (String × JSValue) → List (String × JSValue)
  | [] => []
  | (k, v) :: rest => (k, deepClonePolyfill v) :: deepCloneFields rest

end

/-- `deepClone` from `src/utils/object.util.ts`: it uses `structuredClone`
when available and falls back to `deepClonePolyfill` (also on
`DataCloneError`).  On the JSON-like values of this model both produce the
same structural copy, so the embedding is the polyfill. -/
def deepClone (source : JSValue) : JSValue :=
  deepClonePolyfill source

/-- `isPlainObject` from `src/utils/object.util.ts`: an object that is not
`null`, not an array, and whose `Object.prototype.toString` tag is
`[object Object]` — in this value model, exactly the `obj` constructor. -/
def isPlainObject : JSValue → Bool
  | .obj _ => true
  | _ => false

mutual

/-- `deepMerge` from `src/utils/object.util.ts`: `undefined`/`null` sources
return the target; otherwise the target is deep-cloned and the source's own
enumerable entries are folded into it (`for (const key in source)` with a
`hasOwnProperty` guard).  A string source enumerates its characters by index;
other primitive sources enumerate nothing.  The verified flows only ever call
it with a plain-object source. -/
def deepMerge (target source : JSValue) : JSValue :=
  if isNullish source then target
  else
    match source with
    | .obj fs => deepMergeEntries (deepClone target) fs
    | .arr xs => deepMergeIndexed (deepClone target) 0 xs
    | .str s => deepMergeChars (deepClone target) 0 s.data
    | _ => deepClone target

/-- The loop body of `deepMerge` over an object source: an `undefined` source
value is skipped; two plain objects merge recursively; otherwise the source
value overwrites. -/
def deepMergeEntries (result : JSValue) : List (String × JSValue) → JSValue
  | [] => result
  | (k, sv) :: rest =>
      if isUndefined sv then deepMergeEntries result rest
      else
        let tv := jsGet result k
        if isPlainObject tv && isPlainObject sv then
          deepMergeEntries (jsSet result k (deepMerge tv sv)) rest
        else
          deepMergeEntries (jsSet result k sv) rest

/-- The same loop for an array source, whose `for … in` keys are its decimal
indices. -/
def deepMergeIndexed (result : JSValue) (i : Nat) : List JSValue → JSValue
  | [] => result
  | sv :: rest =>
      if isUndefined sv then deepMergeIndexed result (i + 1) rest
      else
        let tv := jsGet result (toString i)
        if isPlainObject tv && isPlainObject sv then
          deepMergeIndexed (jsSet result (toString i) (deepMerge tv sv)) (i + 1) rest
        else
          deepMergeIndexed (jsSet result (toString i) sv) (i + 1) rest

/-- The same loop for a string source, whose `for … in` keys are its character
indices; a one-character string is never `undefined` nor a plain object, so no
recursive merge can arise. -/
def deepMergeChars (result : JSValue) (i : Nat) : List Char → JSValue
  | [] => result
  | c :: cs => deepMergeChars (jsSet result (toString i) (.str (String.singleton c))) (i + 1) cs

end

/-- `v === null`. -/
def isNull : JSValue → Bool
  | .null => true
  | _ => false

/-- An update accepted by `setStore` / `set`: either a mutator function or a
plain value (a replacement value or a partial object to merge).  A JS mutator
may both mutate its draft argument and return a replacement; a pure model
captures this as `draft ↦ (mutated draft, optional return value)`, where a
JS function that "returns nothing" returns `undefined`, i.e. `none`. -/
inductive Update where
  | func (f : JSValue → JSValue × Option JSValue)
  | val (v : JSValue)

/-- The next-value computation of `setStore` in the singleton store factory
`createDataStore`: a function update on a non-`"object"` current value is
called on the value and its return value is used; on an `"object"` current
value the draft is a deep clone, and the return value is used exactly when it
is not `undefined`, else the mutated draft; a plain-object update against a
plain-object store deep-merges; anything else replaces directly. -/
def resolveNext (store : JSValue) (u : Update) : JSValue :=
  match u with
  | .func f =>
      if !typeofObject store then ((f store).2).getD .undefined
      else
        let res := f (deepClone store)
        match res.2 with
        | some r => r
        | none => res.1
  | .val v =>
      if isPlainObject v && isPlainObject store then deepMerge store v
      else v

def MAX_HISTORY : Nat := 100

def DEBOUNCE_DELAY : Nat := 200

/-- The mutable closure state of one `createDataStore` instance.  `pending`
models the `pushHistoryDebouncedTimeout` handle: the deadline at which it is
due together with the `latestVersion` snapshot it will push.  `notifications`
counts `notifySubscribers` calls. -/
structure DataStore where
  store : JSValue
  history : List JSValue
  currentIndex : Nat
  pending : Option (Nat × JSValue)
  notifications : Nat

/-- `createDataStore(initialState)`: the store starts as a deep clone of the
initial state, the history as one deep-cloned snapshot of it, the cursor at 0,
with no debounce timer pending. -/
def createDataStore (initialState : JSValue) : DataStore :=
  { store := deepClone initialState
    history := [deepClone (deepClone initialState)]
    currentIndex := 0
    pending := none
    notifications := 0 }

/-- The body of the debounce timeout in `setStore`: truncate the history after
the cursor, append the captured `latestVersion`, move the cursor to the last
index; if the length now exceeds `MAX_HISTORY`, shift out the oldest entry and
decrement the cursor.  A fired timer cannot fire again, hence `pending :=
none`. -/
def pushHistoryEntry (st : DataStore) (latestVersion : JSValue) : DataStore :=
  let h := st.history.take (st.currentIndex + 1) ++ [latestVersion]
  if h.length > MAX_HISTORY then
    { st with history := h.drop 1, currentIndex := h.length - 2, pending := none }
  else
    { st with history := h, currentIndex := h.length - 1, pending := none }

/-- Let wall-clock time advance to instant `t`: a pending debounce timeout
whose deadline has been reached fires. -/
def advanceTo (t : Nat) (st : DataStore) : DataStore :=
  match st.pending with
  | some (d, v) => if d ≤ t then pushHistoryEntry st v else st
  | none => st

/-- `setStore(update)` invoked at instant `t`: compute the next state, and if
it structurally differs from the current one, install it, restart the debounce
timer (`clearTimeout` + `setTimeout`, i.e. replace `pending`) with a snapshot
of the new state, and notify.  Otherwise do nothing at all. -/
def setStore (st : DataStore) (t : Nat) (u : Update) : DataStore :=
  let nextState := resolveNext st.store u
  if deepEqual st.store nextState then st
  else
    { st with
        store := nextState
        pending := some (t + DEBOUNCE_DELAY, deepClone nextState)
        notifications := st.notifications + 1 }

/-- `undo()`: when the cursor is positive, step it back and restore a deep
clone of that history entry. -/
def undo (st : DataStore) : DataStore :=
  if 0 < st.currentIndex then
    { st with
        currentIndex := st.currentIndex - 1
        store := deepClone (st.history.getD (st.currentIndex - 1) .undefined)
        notifications := st.notifications + 1 }
  else st

/-- `redo()`: when the cursor is before the last index, step it forward and
restore a deep clone of that history entry. -/
def redo (st : DataStore) : DataStore :=
  if st.currentIndex < st.history.length - 1 then
    { st with
        currentIndex := st.currentIndex + 1
        store := deepClone (st.history.getD (st.currentIndex + 1) .undefined)
        notifications := st.notifications + 1 }
  else st

/-- `rollbackTo(versionIndex)`: in-range indices move the cursor and restore;
out-of-range indices (including negative ones) are a no-op. -/
def rollbackTo (st : DataStore) (versionIndex : Int) : DataStore :=
  if 0 ≤ versionIndex ∧ versionIndex < st.history.length then
    { st with
        currentIndex := versionIndex.toNat
        store := deepClone (st.history.getD versionIndex.toNat .undefined)
        notifications := st.notifications + 1 }
  else st

/-- `resetStore()`: restore a deep clone of the initial state, collapse the
history to one entry, reset the cursor.  Note that the source does *not*
clear `pushHistoryDebouncedTimeout`, so `pending` is left as it was. -/
def resetStore (initialState : JSValue) (st : DataStore) : DataStore :=
  { st with
      store := deepClone initialState
      history := [deepClone initialState]
      currentIndex := 0
      notifications := st.notifications + 1 }

/-- `getHistory()`: a fresh list of deep clones of the history entries. -/
def getHistory (st : DataStore) : List JSValue :=
  st.history.map (fun h => deepClone h)

/-- `getCurrentVersion()`. -/
def getCurrentVersion (st : DataStore) : Nat :=
  st.currentIndex

/-- One externally triggered event against a `createDataStore` instance.
`set` and `fire` carry the instant at which they happen; time advancing to
that instant first lets any due debounce timeout run, as the single-threaded
event loop would. -/
inductive Op where
  | set (t : Nat) (u : Update)
  | fire (t : Nat)
  | undoOp
  | redoOp
  | rollback (i : Int)
  | reset

def applyOp (initialState : JSValue) (st : DataStore) : Op → DataStore
  | .set t u => setStore (advanceTo t st) t u
  | .fire t => advanceTo t st
  | .undoOp => undo st
  | .redoOp => redo st
  | .rollback i => rollbackTo st i
  | .reset => resetStore initialState st

def runOps (initialState : JSValue) (st : DataStore) : List Op → DataStore
  | [] => st
  | op :: ops => runOps initialState (applyOp initialState st op) ops

/-- The next-value computation of `set` in `createContextStore`
(`src/providers/context.provider.tsx`).  It differs from the singleton store
on the mutator-function path: for a non-null `"object"` current value the
draft is cloned and mutated, and the function's return value is *discarded*.
An update object carrying a `"type"` key is routed to the optional reducer
(which mutates a cloned draft); then plain-object updates merge; everything
else replaces.  `reducer` models the configured `(state, action) -> void`
reducer as `draft ↦ action ↦ mutated draft`. -/
def resolveCtxNext (reducer : Option (JSValue → JSValue → JSValue))
    (store : JSValue) (u : Update) : JSValue :=
  match u with
  | .func f =>
      if !typeofObject store || isNull store then ((f store).2).getD .undefined
      else (f (deepClone store)).1
  | .val v =>
      if !isNullish v && typeofObject v && (jsKeys v).contains "type" then
        match reducer with
        | some r => r (deepClone store) v
        | none =>
            if isPlainObject v && isPlainObject store then deepMerge store v else v
      else if isPlainObject v && isPlainObject store then deepMerge store v
      else v

/-- The observable state of one context store: the `store.current` ref, the
log of values handed to `saveState` (persistence writes), and the number of
subscriber notification rounds. -/
structure CtxStore where
  current : JSValue
  saveLog : List JSValue
  notifications : Nat

/-- `set` of `createContextStore`: compute the next state; when it
structurally differs from the current one, install it, persist it, and notify
each subscriber — otherwise do nothing. -/
def ctxSet (reducer : Option (JSValue → JSValue → JSValue))
    (st : CtxStore) (u : Update) : CtxStore :=
  let nextState := resolveCtxNext reducer st.current u
  if deepEqual st.current nextState then st
  else
    { current := nextState
      saveLog := st.saveLog ++ [nextState]
      notifications := st.notifications + 1 }

/-- The own enumerable entries a spread `{...v}` copies: object fields, array
elements by index, the characters of a string by index; primitives contribute
nothing. -/
def spreadEntries : JSValue → List (String × JSValue)
  | .str s => s.data.enum.map fun p => (toString p.1, .str (String.singleton p.2))
  | v => jsEntries v

/-- The object literal `{...a, ...b}`: a fresh object receiving `a`'s spread
entries and then `b`'s, later writes overriding earlier ones. -/
def spreadPair (a b : JSValue) : JSValue :=
  (spreadEntries a ++ spreadEntries b).foldl (fun acc p => jsSet acc p.1 p.2) (.obj [])

/-- The JS `in` operator `k in v`: key membership on objects and arrays, and a
thrown `TypeError` on primitives and `null`/`undefined`. -/
def jsHasKeyIn (k : String) (v : JSValue) : Except Unit Bool :=
  match v with
  | .obj _ | .arr _ => .ok ((jsKeys v).contains k)
  | _ => .error ()

/-- The `try` block of `loadState` in `createContextStore`, with every
exception propagated: read the persisted slot (`getItem` may throw — denied
access —, return nothing, or return a string), treat a missing or empty
(falsy) payload as absent, parse it (`JSON.parse` may throw on malformed
content), and overlay it — restricted to `persistFields` when that list is
non-empty — onto the initial state with a shallow spread.  A falsy (absent or
empty) `persistKey` short-circuits to the initial state before the `try`. -/
def tryLoadState (initialState : JSValue) (persistKey : Option String)
    (persistFields : List String)
    (getItem : String → Except Unit (Option String))
    (parseJSON : String → Except Unit JSValue) : Except Unit JSValue :=
  match persistKey with
  | none => .ok initialState
  | some key =>
      if key = "" then .ok initialState
      else do
        let stored ← getItem key
        match stored with
        | none => pure initialState
        | some s =>
            if s = "" then pure initialState
            else do
              let parsed ← parseJSON s
              if 0 < persistFields.length then do
                let partialState ← persistFields.foldlM
                  (fun acc k => do
                    let h ← jsHasKeyIn k parsed
                    pure (if h then jsSet acc k (jsGet parsed k) else acc))
                  (JSValue.obj [])
                pure (spreadPair initialState partialState)
              else
                pure (spreadPair initialState parsed)

/-- `loadState` itself: the `try` block with its `catch` — any exception falls
back to the initial state. -/
def loadState (initialState : JSValue) (persistKey : Option String)
    (persistFields : List String)
    (getItem : String → Except Unit (Option String))
    (parseJSON : String → Except Unit JSValue) : JSValue :=
  match tryLoadState initialState persistKey persistFields getItem parseJSON with
  | .ok v => v
  | .error _ => initialState

/-- The state invariant of one `createDataStore` instance: the cursor is a
valid history index and the history never exceeds the cap. -/
def StoreInv (st : DataStore) : Prop :=
  st.currentIndex < st.history.length ∧ st.history.length ≤ MAX_HISTORY

/-- Run a sequence of timestamped `setStore` calls (each preceded by time
advancing to its instant, which lets a due debounce timer fire first). -/
def runBurst (st : DataStore) : List (Nat × Update) → DataStore
  | [] => st
  | (t, u) :: rest => runBurst (setStore (advanceTo t st) t u) rest

/-- A burst continuation relative to the previous change at instant `tp` (or
none): each change happens strictly later than, but within the debounce window
of, the previous one, and each is accepted (its resolved next value differs
structurally from the current one). -/
def burstOk (w : JSValue) : Option Nat → List (Nat × Update) → Bool
  | _, [] => true
  | tp, (t, u) :: rest =>
      (match tp with
       | none => true
       | some p => decide (p < t) && decide (t < p + DEBOUNCE_DELAY))
      && !deepEqual w (resolveNext w u)
      && burstOk (resolveNext w u) (some t) rest

/-- The value the store holds after a burst of changes starting from `w`. -/
def burstFinal (w : JSValue) : List (Nat × Update) → JSValue
  | [] => w
  | (_, u) :: rest => burstFinal (resolveNext w u) rest

/-- The instant of the last change of the burst (`t0` for an empty one). -/
def lastTime (t0 : Nat) : List (Nat × Update) → Nat
  | [] => t0
  | (t, _) :: rest => lastTime t rest

/-- The little-endian decimal digit list of a natural number (one digit for
numbers below 10), matching the stopping rule of `Nat.toDigitsCore`. -/
def digitsRev (n : Nat) : List Nat :=
  if n < 10 then [n] else (n % 10) :: digitsRev (n / 10)
termination_by n
decreasing_by exact Nat.div_lt_self (by omega) (by omega)

/-- A scalar in the sense of the structural-identity specification:
anything that is neither a sequence nor a record. -/
def isScalar : JSValue → Bool
  | .arr _ | .obj _ => false
  | _ => true

/-- Two key lists name the same key set (each is contained in the other);
order and — for well-formed values — multiplicity are irrelevant. -/
def sameKeySet (ks ls : List String) : Bool :=
  ks.all (fun k => ls.contains k) && ls.all (fun k => ks.contains k)

mutual

/-- Structural identity as the specification words it: the same scalar value,
or same-length sequences with pairwise-equal elements in order, or records
with the same key set and pairwise-equal values per key (key order
irrelevant).  A sequence and a record are never structurally identical — any
mixed pair falls to the scalar clause and is rejected. -/
def specStructEq : JSValue → JSValue → Bool
  | .arr xs, .arr ys => xs.length == ys.length && specStructEqElems xs ys
  | .obj fs, .obj gs =>
      sameKeySet (fs.map Prod.fst) (gs.map Prod.fst) && specStructEqFields fs (.obj gs)
  | a, b => isScalar a && isScalar b && strictEq a b

def specStructEqElems : List JSValue → List JSValue → Bool
  | [], _ => true
  | _ :: _, [] => false
  | x :: xs, y :: ys => specStructEq x y && specStructEqElems xs ys

def specStructEqFields : List (String × JSValue) → JSValue → Bool
  | [], _ => true
  | (k, v) :: rest, b => specStructEq v (jsGet b k) && specStructEqFields rest b

end

mutual

/-- Structural identity as `deepEqual` actually decides it: like
`specStructEq` on scalars, on two sequences and on two records, but a mixed
sequence/record pair is compared as two records over their own enumerable
keys — a sequence contributes its elements under their stringified indices. -/
def structIdent : JSValue → JSValue → Bool
  | .arr xs, .arr ys => xs.length == ys.length && structIdentElems xs ys
  | .obj fs, .obj gs =>
      sameKeySet (fs.map Prod.fst) (gs.map Prod.fst) && structIdentFields fs (.obj gs)
  | .arr xs, .obj gs =>
      sameKeySet (jsKeys (.arr xs)) (gs.map Prod.fst) && structIdentIndexed xs 0 (.obj gs)
  | .obj fs, .arr ys =>
      sameKeySet (fs.map Prod.fst) (jsKeys (.arr ys)) && structIdentFields fs (.arr ys)
  | a, b => isScalar a && isScalar b && strictEq a b

def structIdentElems : List JSValue → List JSValue → Bool
  | [], _ => true
  | _ :: _, [] => false
  | x :: xs, y :: ys => structIdent x y && structIdentElems xs ys

def structIdentFields : List (String × JSValue) → JSValue → Bool
  | [], _ => true
  | (k, v) :: rest, b => structIdent v (jsGet b k) && structIdentFields rest b

def structIdentIndexed : List JSValue → Nat → JSValue → Bool
  | [], _, _ => true
  | x :: xs, i, b => structIdent x (jsGet b (toString i)) && structIdentIndexed xs (i + 1) b

end

/-- A runtime value as it sits in memory: a primitive, or a reference
(pointer) to a heap cell.  This refines `JSValue` with object identity, which
the pure value model cannot express, in order to state the aliasing/freshness
guarantee of `getHistory`. -/
inductive HVal where
  | hnull
  | hundefined
  | hbool (b : Bool)
  | hnum (n : Int)
  | hstr (s : String)
  | href (a : Nat)

/-- A heap cell: one array object or one plain object. -/
inductive HObj where
  | harr (elems : List HVal)
  | hobj (fields : List (String × HVal))

/-- A heap: cells listed with their addresses (first match wins on lookup). -/
abbrev Heap := List (Nat × HObj)

def lookup (h : Heap) (a : Nat) : Option HObj :=
  match List.find? (fun c => c.1 == a) h with
  | some c => some c.2
  | none => none

/-- Mutate the cell at address `a` in place. -/
def heapUpdate (h : Heap) (a : Nat) (o : HObj) : Heap :=
  List.map (fun c => if c.1 == a then (a, o) else c) h

mutual

/-- `deepClone` over the heap: primitives are returned as-is, while every
reference is dereferenced and its cell is copied into a *newly allocated*
cell (addresses are handed out from the counter `fresh` upward).  The result
is the cloned root value, the list of newly allocated cells, and the next
free address.  `fuel` bounds the recursion depth (the runtime clone would not
terminate on a cyclic structure either); every theorem below holds for any
fuel on which the clone succeeds. -/
def cloneH : Nat → Heap → HVal → Nat → Option (HVal × List (Nat × HObj) × Nat)
  | 0, _, _, _ => none
  | fuel + 1, h, v, fresh =>
      match v with
      | .href a =>
          match lookup h a with
          | none => none
          | some (.harr xs) =>
              match cloneElemsH fuel h xs (fresh + 1) with
              | none => none
              | some (xs', cells, f') => some (.href fresh, (fresh, .harr xs') :: cells, f')
          | some (.hobj fs) =>
              match cloneFieldsH fuel h fs (fresh + 1) with
              | none => none
              | some (fs', cells, f') => some (.href fresh, (fresh, .hobj fs') :: cells, f')
      | v => some (v, [], fresh)

def cloneElemsH : Nat → Heap → List HVal → Nat → Option (List HVal × List (Nat × HObj) × Nat)
  | 0, _, _, _ => none
  | _ + 1, _, [], fresh => some ([], [], fresh)
  | fuel + 1, h, x :: xs, fresh =>
      match cloneH fuel h x fresh with
      | none => none
      | some (x', cx, f1) =>
          match cloneElemsH fuel h xs f1 with
          | none => none
          | some (xs', cxs, f2) => some (x' :: xs', cx ++ cxs, f2)

def cloneFieldsH : Nat → Heap → List (String × HVal) → Nat →
    Option (List (String × HVal) × List (Nat × HObj) × Nat)
  | 0, _, _, _ => none
  | _ + 1, _, [], fresh => some ([], [], fresh)
  | fuel + 1, h, (k, v) :: fs, fresh =>
      match cloneH fuel h v fresh with
      | none => none
      | some (v', cv, f1) =>
          match cloneFieldsH fuel h fs f1 with
          | none => none
          | some (fs', cfs, f2) => some ((k, v') :: fs', cv ++ cfs, f2)

end

mutual

/-- Read a heap value back as a pure `JSValue` (the observable structure),
following references up to depth `fuel`; `none` on a dangling reference or
exhausted fuel. -/
def readV : Nat → Heap → HVal → Option JSValue
  | 0, _, _ => none
  | fuel + 1, h, v =>
      match v with
      | .hnull => some .null
      | .hundefined => some .undefined
      | .hbool b => some (.bool b)
      | .hnum n => some (.num n)
      | .hstr s => some (.str s)
      | .href a =>
          match lookup h a with
          | none => none
          | some (.harr xs) =>
              match readElems fuel h xs with
              | some js => some (.arr js)
              | none => none
          | some (.hobj fs) =>
              match readFields fuel h fs with
              | some js => some (.obj js)
              | none => none

def readElems : Nat → Heap → List HVal → Option (List JSValue)
  | 0, _, _ => none
  | _ + 1, _, [] => some []
  | fuel + 1, h, x :: xs =>
      match readV fuel h x with
      | none => none
      | some j =>
          match readElems fuel h xs with
          | none => none
          | some js => some (j :: js)

def readFields : Nat → Heap → List (String × HVal) → Option (List (String × JSValue))
  | 0, _, _ => none
  | _ + 1, _, [] => some []
  | fuel + 1, h, (k, v) :: fs =>
      match readV fuel h v with
      | none => none
      | some j =>
          match readFields fuel h fs with
          | none => none
          | some js => some ((k, j) :: js)

end

mutual

@[simp] theorem deepClonePolyfill_eq_self : (v : JSValue) → deepClonePolyfill v = v
  | .null => rfl
  | .undefined => rfl
  | .bool _ => rfl
  | .num _ => rfl
  | .str _ => rfl
  | .arr xs => by simp [deepClonePolyfill, deepCloneElems_eq_self xs]
  | .obj fs => by simp [deepClonePolyfill, deepCloneFields_eq_self fs]

@[simp] theorem deepCloneElems_eq_self : (xs : List JSValue) → deepCloneElems xs = xs
  | [] => rfl
  | x :: xs => by simp [deepCloneElems, deepClonePolyfill_eq_self x, deepCloneElems_eq_self xs]

@[simp] theorem deepCloneFields_eq_self : (fs : List (String × JSValue)) → deepCloneFields fs = fs
  | [] => rfl
  | (k, v) :: rest => by
      simp [deepCloneFields, deepClonePolyfill_eq_self v, deepCloneFields_eq_self rest]

end

/-- In the pure value model a deep clone is the same value; what `deepClone`
adds at runtime is freshness of every composite node, which is treated by the
heap model at the end of this file. -/
@[simp] theorem deepClone_eq_self (v : JSValue) : deepClone v = v :=
  deepClonePolyfill_eq_self v

/-- Claim C6 (refuted by the code — the claim matches the spec's stated
intent): `resetStore` replaces the live value with a clone of the initial
value, collapses the history and resets the cursor, but it does *not* cancel
the outstanding debounce timeout, so a pre-reset change's snapshot is still
pushed into the history when the stale timer fires.  Concretely: from initial
value `0`, an accepted change to `1` at instant 0 followed by `resetStore()`
and then the timer firing at instant 200 leaves history `[0, 1]` — the stale
snapshot `1` lands after the reset — instead of the `[0]` the claim
requires. -/
theorem resetStore_keeps_stale_debounce :
    (resetStore (.num 0) (setStore (createDataStore (.num 0)) 0 (.val (.num 1)))).pending
        = some (DEBOUNCE_DELAY, .num 1)
    ∧ (advanceTo 200 (resetStore (.num 0)
          (setStore (createDataStore (.num 0)) 0 (.val (.num 1))))).history
        = [.num 0, .num 1]
    ∧ (advanceTo 200 (resetStore (.num 0)
          (setStore (createDataStore (.num 0)) 0 (.val (.num 1))))).store
        = .num 0
    ∧ (advanceTo 200 (resetStore (.num 0)
          (setStore (createDataStore (.num 0)) 0 (.val (.num 1))))).history
        ≠ [.num 0] := by
  refine ⟨?_, ?_, ?_, ?_⟩ <;>
    simp [createDataStore, setStore, resetStore, advanceTo, pushHistoryEntry, resolveNext,
      deepEqual, strictEq, isNullish, typeofObject, isPlainObject, deepClone, deepClonePolyfill,
      MAX_HISTORY, DEBOUNCE_DELAY]

/-- Claim C1, counterexample: in the context-provider store, a mutator
function applied to a record value has its return value *ignored* — with
current value `{a: 1}` and an update function that mutates nothing and
returns `{a: 99}`, the store is left at `{a: 1}` (the call is even a no-op,
since the unmutated draft deep-equals the current value), not at the returned
`{a: 99}` the claim requires for the return-to-replace convention. -/
theorem ctx_mutator_return_ignored :
    (ctxSet none ⟨.obj [("a", .num 1)], [], 0⟩
        (.func fun d => (d, some (.obj [("a", .num 99)])))).current
      = .obj [("a", .num 1)]
    ∧ (JSValue.obj [("a", .num 1)]) ≠ .obj [("a", .num 99)] := by
  constructor
  · simp [ctxSet, resolveCtxNext, typeofObject, isNull, deepClone, deepClonePolyfill,
      deepCloneFields, deepEqual, strictEq, isNullish, jsKeys, jsEntries, jsGet,
      deepEqualFields]
  · simp

/-- Claim C1, amended: for a current value that is a record or sequence (or
`null` in the singleton variant — anything of JS type `"object"`), the
*singleton* store's mutator path clones the current value into a draft,
invokes the function, and uses its return value when non-absent, else the
mutated draft — honouring both the mutate-in-place and the return-to-replace
conventions; the *context-provider* variant instead always uses the mutated
draft, discarding the function's return value. -/
theorem mutator_next_value (store : JSValue) (f : JSValue → JSValue × Option JSValue)
    (reducer : Option (JSValue → JSValue → JSValue))
    (hobj : typeofObject store = true) (hnn : isNull store = false) :
    (∀ d', f store = (d', none) → resolveNext store (.func f) = d')
    ∧ (∀ d' r, f store = (d', some r) → resolveNext store (.func f) = r)
    ∧ resolveCtxNext reducer store (.func f) = (f store).1 := by
  refine ⟨?_, ?_, ?_⟩
  · intro d' h
    simp [resolveNext, hobj, deepClone_eq_self, h]
  · intro d' r h
    simp [resolveNext, hobj, deepClone_eq_self, h]
  · simp [resolveCtxNext, hobj, hnn, deepClone_eq_self]

/-- Claim C1, witness for the amended theorem: on the record `{a: 1}`, a
mutator returning `{a: 99}` replaces in the singleton store, a mutator
returning nothing keeps its (here unmutated) draft, and the context variant
keeps the draft in both cases. -/
theorem mutator_next_value_witness :
    resolveNext (.obj [("a", .num 1)]) (.func fun d => (d, some (.obj [("a", .num 99)])))
      = .obj [("a", .num 99)]
    ∧ resolveNext (.obj [("a", .num 1)]) (.func fun d => (d, none)) = .obj [("a", .num 1)]
    ∧ resolveCtxNext none (.obj [("a", .num 1)])
        (.func fun d => (d, some (.obj [("a", .num 99)]))) = .obj [("a", .num 1)] := by
  refine ⟨?_, ?_, ?_⟩
  · exact (mutator_next_value (.obj [("a", .num 1)]) _ none rfl rfl).2.1 _ _ rfl
  · exact (mutator_next_value (.obj [("a", .num 1)]) _ none rfl rfl).1 _ rfl
  · exact (mutator_next_value (.obj [("a", .num 1)]) _ none rfl rfl).2.2

/-- Claim C5 (confirmed): when the candidate next value deep-equals the
current one, `set` is a complete no-op in both store variants — the state
record is unchanged, so no persistence write is logged, no debounce push is
scheduled, no notification fires, and the value stays put. -/
theorem set_noop_when_deep_equal :
    (∀ (st : DataStore) (t : Nat) (u : Update),
        deepEqual st.store (resolveNext st.store u) = true → setStore st t u = st)
    ∧ (∀ (reducer : Option (JSValue → JSValue → JSValue)) (st : CtxStore) (u : Update),
        deepEqual st.current (resolveCtxNext reducer st.current u) = true →
          ctxSet reducer st u = st) := by
  constructor
  · intro st t u h
    simp [setStore, h]
  · intro reducer st u h
    simp [ctxSet, h]

/-- Claim C5, witness: setting the scalar `5` on a store currently holding
`5` changes nothing in either variant. -/
theorem set_noop_when_deep_equal_witness :
    setStore ⟨.num 5, [.num 5], 0, none, 0⟩ 0 (.val (.num 5)) = ⟨.num 5, [.num 5], 0, none, 0⟩
    ∧ ctxSet none ⟨.num 5, [], 0⟩ (.val (.num 5)) = ⟨.num 5, [], 0⟩ := by
  constructor
  · exact set_noop_when_deep_equal.1 ⟨.num 5, [.num 5], 0, none, 0⟩ 0 (.val (.num 5))
      (by simp [resolveNext, isPlainObject, deepEqual, strictEq])
  · exact set_noop_when_deep_equal.2 none ⟨.num 5, [], 0⟩ (.val (.num 5))
      (by simp [resolveCtxNext, isPlainObject, isNullish, typeofObject, jsKeys, jsEntries,
        deepEqual, strictEq])

/-- Claim C8 (confirmed): hydration never raises to the caller — every
exception of the `try` block is caught and falls back to the initial value —
and each failure mode (no persistence configured, denied storage access,
absent key, corrupted payload) yields exactly the initial value. -/
theorem loadState_hydration_fallback (initialState : JSValue) (persistKey : Option String)
    (persistFields : List String) (getItem : String → Except Unit (Option String))
    (parseJSON : String → Except Unit JSValue) :
    (persistKey = none →
        loadState initialState persistKey persistFields getItem parseJSON = initialState)
    ∧ (∀ key, persistKey = some key → getItem key = .error () →
        loadState initialState persistKey persistFields getItem parseJSON = initialState)
    ∧ (∀ key, persistKey = some key → getItem key = .ok none →
        loadState initialState persistKey persistFields getItem parseJSON = initialState)
    ∧ (∀ key s, persistKey = some key → getItem key = .ok (some s) → parseJSON s = .error () →
        loadState initialState persistKey persistFields getItem parseJSON = initialState)
    ∧ (∀ e, tryLoadState initialState persistKey persistFields getItem parseJSON = .error e →
        loadState initialState persistKey persistFields getItem parseJSON = initialState) := by
  refine ⟨?_, ?_, ?_, ?_, ?_⟩
  · intro h
    simp [loadState, tryLoadState, h]
  · intro key hk hg
    by_cases hkey : key = ""
    · simp [loadState, tryLoadState, hk, hkey]
    · simp [loadState, tryLoadState, hk, hkey, hg, Bind.bind, Except.bind, pure, Except.pure]
  · intro key hk hg
    by_cases hkey : key = ""
    · simp [loadState, tryLoadState, hk, hkey]
    · simp [loadState, tryLoadState, hk, hkey, hg, Bind.bind, Except.bind, pure, Except.pure]
  · intro key s hk hg hp
    by_cases hkey : key = ""
    · simp [loadState, tryLoadState, hk, hkey]
    · by_cases hs : s = ""
      · simp [loadState, tryLoadState, hk, hkey, hg, hs, Bind.bind, Except.bind, pure, Except.pure]
      · simp [loadState, tryLoadState, hk, hkey, hg, hs, hp, Bind.bind, Except.bind, pure, Except.pure]
  · intro e h
    simp [loadState, h]

/-- Claim C8, witness: with a configured key, a stored-but-corrupted payload
(`parseJSON` fails on it) hydrates to exactly the initial value. -/
theorem loadState_hydration_fallback_witness :
    loadState (.obj [("a", .num 7)]) (some "slot") []
        (fun _ => .ok (some "corrupted")) (fun _ => .error ()) = .obj [("a", .num 7)] :=
  (loadState_hydration_fallback (.obj [("a", .num 7)]) (some "slot") []
      (fun _ => .ok (some "corrupted")) (fun _ => .error ())).2.2.2.1
    "slot" "corrupted" rfl rfl rfl

theorem storeInv_pushHistoryEntry {st : DataStore} (h : StoreInv st) (v : JSValue) :
    StoreInv (pushHistoryEntry st v) := by
  obtain ⟨h1, h2⟩ := h
  simp only [pushHistoryEntry]
  split
  · next hc => constructor <;> simp_all <;> omega
  · next hc => constructor <;> simp_all <;> omega

theorem storeInv_advanceTo {st : DataStore} (h : StoreInv st) (t : Nat) :
    StoreInv (advanceTo t st) := by
  unfold advanceTo
  split
  · split
    · exact storeInv_pushHistoryEntry h _
    · exact h
  · exact h

theorem storeInv_setStore {st : DataStore} (h : StoreInv st) (t : Nat) (u : Update) :
    StoreInv (setStore st t u) := by
  obtain ⟨h1, h2⟩ := h
  simp only [setStore]
  split
  · exact ⟨h1, h2⟩
  · exact ⟨h1, h2⟩

theorem storeInv_undo {st : DataStore} (h : StoreInv st) : StoreInv (undo st) := by
  unfold undo StoreInv at *
  split <;> simp_all <;> omega

theorem storeInv_redo {st : DataStore} (h : StoreInv st) : StoreInv (redo st) := by
  unfold redo StoreInv at *
  split <;> simp_all <;> omega

theorem storeInv_rollbackTo {st : DataStore} (h : StoreInv st) (i : Int) :
    StoreInv (rollbackTo st i) := by
  unfold rollbackTo StoreInv at *
  split <;> simp_all <;> omega

theorem storeInv_resetStore {st : DataStore} (initialState : JSValue) :
    StoreInv (resetStore initialState st) := by
  unfold resetStore StoreInv MAX_HISTORY
  simp

theorem storeInv_applyOp {st : DataStore} (h : StoreInv st) (initialState : JSValue)
    (op : Op) : StoreInv (applyOp initialState st op) := by
  cases op with
  | set t u => exact storeInv_setStore (storeInv_advanceTo h t) t u
  | fire t => exact storeInv_advanceTo h t
  | undoOp => exact storeInv_undo h
  | redoOp => exact storeInv_redo h
  | rollback i => exact storeInv_rollbackTo h i
  | reset => exact storeInv_resetStore initialState

theorem storeInv_runOps {st : DataStore} (h : StoreInv st) (initialState : JSValue) :
    ∀ ops : List Op, StoreInv (runOps initialState st ops)
  | [] => h
  | op :: ops => storeInv_runOps (storeInv_applyOp h initialState op) initialState ops

/-- Claim C3 (confirmed): along any sequence of store operations — sets,
timer firings, undo, redo, rollback, reset, at arbitrary instants — the
history length stays within the cap of `MAX_HISTORY = 100` entries and the
cursor stays a valid index (`0 ≤ currentIndex < history.length`, the lower
bound being typal); and when a debounce push would overflow the cap, the
oldest retained entry is the one evicted (FIFO). -/
theorem history_bounds (initialState : JSValue) (ops : List Op) :
    (runOps initialState (createDataStore initialState) ops).currentIndex
        < (runOps initialState (createDataStore initialState) ops).history.length
    ∧ (runOps initialState (createDataStore initialState) ops).history.length ≤ MAX_HISTORY
    ∧ (∀ (st : DataStore) (v : JSValue),
        (st.history.take (st.currentIndex + 1)).length = MAX_HISTORY →
        (pushHistoryEntry st v).history
          = (st.history.take (st.currentIndex + 1)).drop 1 ++ [v]) := by
  have hinv : StoreInv (runOps initialState (createDataStore initialState) ops) :=
    storeInv_runOps (by constructor <;> simp [createDataStore, MAX_HISTORY]) initialState ops
  refine ⟨hinv.1, hinv.2, ?_⟩
  intro st v hlen
  have h1 : 1 ≤ (st.history.take (st.currentIndex + 1)).length := by
    rw [hlen]; decide
  simp only [pushHistoryEntry]
  split
  · simp [List.drop_append_of_le_length h1]
  · next hc =>
      exact absurd (by simp [hlen] :
        (st.history.take (st.currentIndex + 1) ++ [v]).length > MAX_HISTORY) hc

/-- Claim C3, witness: the invariant at the freshly created store, and FIFO
eviction pushing onto a full 100-entry history. -/
theorem history_bounds_witness :
    (runOps (.num 0) (createDataStore (.num 0)) []).currentIndex
        < (runOps (.num 0) (createDataStore (.num 0)) []).history.length
    ∧ (runOps (.num 0) (createDataStore (.num 0)) []).history.length ≤ MAX_HISTORY
    ∧ (pushHistoryEntry ⟨.num 0, List.replicate 100 (.num 0), 99, none, 0⟩ (.num 1)).history
        = ((List.replicate 100 (JSValue.num 0)).take (99 + 1)).drop 1 ++ [.num 1] := by
  have h := history_bounds (.num 0) []
  exact ⟨h.1, h.2.1, h.2.2 ⟨.num 0, List.replicate 100 (.num 0), 99, none, 0⟩ (.num 1)
    (by simp [MAX_HISTORY])⟩

theorem undo_pos (x : DataStore) (hx : 0 < x.currentIndex) :
    undo x = { x with currentIndex := x.currentIndex - 1,
                      store := deepClone (x.history.getD (x.currentIndex - 1) .undefined),
                      notifications := x.notifications + 1 } := by
  simp only [undo]
  rw [if_pos hx]

theorem redo_pos (x : DataStore) (hx : x.currentIndex < x.history.length - 1) :
    redo x = { x with currentIndex := x.currentIndex + 1,
                      store := deepClone (x.history.getD (x.currentIndex + 1) .undefined),
                      notifications := x.notifications + 1 } := by
  simp only [redo]
  rw [if_pos hx]

theorem undo_redo_append (s : DataStore) (K : List JSValue) (v1 : JSValue)
    (hK : s.history = K ++ [v1]) (hci : s.currentIndex = K.length) (hKne : K ≠ []) :
    (undo s).store = K.getD (K.length - 1) .undefined ∧ (redo (undo s)).store = v1 := by
  have hKlen : 0 < K.length := List.length_pos.mpr hKne
  have h1 : undo s =
      { s with currentIndex := K.length - 1,
               store := deepClone ((K ++ [v1]).getD (K.length - 1) .undefined),
               notifications := s.notifications + 1 } := by
    rw [undo_pos s (by rw [hci]; exact hKlen), hci, hK]
  constructor
  · rw [h1]
    show deepClone ((K ++ [v1]).getD (K.length - 1) .undefined) = K.getD (K.length - 1) .undefined
    rw [deepClone_eq_self, List.getD_eq_getElem?_getD, List.getD_eq_getElem?_getD,
      List.getElem?_append]
    rw [if_pos (by omega)]
  · rw [h1]
    have h2 := redo_pos
      { s with currentIndex := K.length - 1,
               store := deepClone ((K ++ [v1]).getD (K.length - 1) .undefined),
               notifications := s.notifications + 1 }
      (by show K.length - 1 < s.history.length - 1; rw [hK]; simp; omega)
    rw [h2]
    show deepClone (s.history.getD (K.length - 1 + 1) .undefined) = v1
    have hidx : K.length - 1 + 1 = K.length := by omega
    rw [deepClone_eq_self, hK, hidx, List.getD_eq_getElem?_getD, List.getElem?_append]
    rw [if_neg (by omega)]
    simp

theorem pushHistoryEntry_full (x : DataStore) (v : JSValue)
    (htk : x.history.take (x.currentIndex + 1) = x.history)
    (hfull : x.history.length = MAX_HISTORY) :
    pushHistoryEntry x v = { x with history := x.history.drop 1 ++ [v],
                                    currentIndex := x.history.length - 1,
                                    pending := none } := by
  have h1 : 1 ≤ x.history.length := by rw [hfull]; decide
  simp only [pushHistoryEntry, htk]
  rw [if_pos (by rw [List.length_append, List.length_singleton, hfull]; omega)]
  rw [List.drop_append_of_le_length h1]
  congr 1
  rw [List.length_append, List.length_singleton]
  omega

theorem pushHistoryEntry_room (x : DataStore) (v : JSValue)
    (htk : x.history.take (x.currentIndex + 1) = x.history)
    (hroom : x.history.length < MAX_HISTORY) :
    pushHistoryEntry x v = { x with history := x.history ++ [v],
                                    currentIndex := x.history.length,
                                    pending := none } := by
  simp only [pushHistoryEntry, htk]
  rw [if_neg (by rw [List.length_append, List.length_singleton]; omega)]
  congr 1
  rw [List.length_append, List.length_singleton]
  omega

/-- Claim C7 (confirmed): from a store whose cursor sits on the last history
entry `V0` (with no pending snapshot), one accepted change followed by its
debounced history push makes `undo()` restore the recorded `V0` and a
subsequent `redo()` restore the post-change value — in both the room-left and
the cap-full (evicting) cases; moreover `undo()` at cursor 0 and `redo()` at
the last index are no-ops. -/
theorem undo_redo_round_trip (st : DataStore) (t : Nat) (u : Update) (v0 : JSValue)
    (hne : st.history ≠ [])
    (hcur : st.currentIndex = st.history.length - 1)
    (hcap : st.history.length ≤ MAX_HISTORY)
    (hv0 : st.history.getD st.currentIndex .undefined = v0)
    (hacc : deepEqual st.store (resolveNext st.store u) = false) :
    (undo (advanceTo (t + DEBOUNCE_DELAY) (setStore st t u))).store = v0
    ∧ (redo (undo (advanceTo (t + DEBOUNCE_DELAY) (setStore st t u)))).store
        = resolveNext st.store u
    ∧ (∀ s : DataStore, s.currentIndex = 0 → undo s = s)
    ∧ (∀ s : DataStore, s.currentIndex = s.history.length - 1 → redo s = s) := by
  have hlen : 0 < st.history.length := List.length_pos.mpr hne
  have htake : st.history.take (st.currentIndex + 1) = st.history := by
    rw [hcur]
    have h : st.history.length - 1 + 1 = st.history.length := by omega
    rw [h, List.take_length]
  have hst1 : setStore st t u =
      { st with store := resolveNext st.store u,
                pending := some (t + DEBOUNCE_DELAY, resolveNext st.store u),
                notifications := st.notifications + 1 } := by
    simp [setStore, hacc]
  have hfire : advanceTo (t + DEBOUNCE_DELAY) (setStore st t u) =
      pushHistoryEntry
        { st with store := resolveNext st.store u,
                  pending := some (t + DEBOUNCE_DELAY, resolveNext st.store u),
                  notifications := st.notifications + 1 }
        (resolveNext st.store u) := by
    rw [hst1]; simp [advanceTo]
  have hmain : (undo (advanceTo (t + DEBOUNCE_DELAY) (setStore st t u))).store = v0
      ∧ (redo (undo (advanceTo (t + DEBOUNCE_DELAY) (setStore st t u)))).store
          = resolveNext st.store u := by
    by_cases hfull : st.history.length = MAX_HISTORY
    · have hA : advanceTo (t + DEBOUNCE_DELAY) (setStore st t u) =
          { st with store := resolveNext st.store u,
                    history := st.history.drop 1 ++ [resolveNext st.store u],
                    currentIndex := st.history.length - 1,
                    pending := none,
                    notifications := st.notifications + 1 } := by
        rw [hfire, pushHistoryEntry_full
          { st with store := resolveNext st.store u,
                    pending := some (t + DEBOUNCE_DELAY, resolveNext st.store u),
                    notifications := st.notifications + 1 }
          (resolveNext st.store u) htake hfull]
      have hKne : st.history.drop 1 ≠ [] := by
        intro hc
        have hlc := congrArg List.length hc
        simp [hfull, MAX_HISTORY] at hlc
      have hrt := undo_redo_append (advanceTo (t + DEBOUNCE_DELAY) (setStore st t u))
        (st.history.drop 1) (resolveNext st.store u)
        (by rw [hA]) (by rw [hA]; show st.history.length - 1 = _; simp) hKne
      refine ⟨?_, hrt.2⟩
      rw [hrt.1, List.getD_eq_getElem?_getD, List.getElem?_drop]
      rw [← hv0, hcur, List.getD_eq_getElem?_getD]
      have h100 : st.history.length = 100 := hfull
      have hix : 1 + ((st.history.drop 1).length - 1) = st.history.length - 1 := by
        rw [List.length_drop]
        omega
      rw [hix]
    · have hroom : st.history.length < MAX_HISTORY := by omega
      have hA : advanceTo (t + DEBOUNCE_DELAY) (setStore st t u) =
          { st with store := resolveNext st.store u,
                    history := st.history ++ [resolveNext st.store u],
                    currentIndex := st.history.length,
                    pending := none,
                    notifications := st.notifications + 1 } := by
        rw [hfire, pushHistoryEntry_room
          { st with store := resolveNext st.store u,
                    pending := some (t + DEBOUNCE_DELAY, resolveNext st.store u),
                    notifications := st.notifications + 1 }
          (resolveNext st.store u) htake hroom]
      have hrt := undo_redo_append (advanceTo (t + DEBOUNCE_DELAY) (setStore st t u))
        st.history (resolveNext st.store u)
        (by rw [hA]) (by rw [hA]) hne
      refine ⟨?_, hrt.2⟩
      rw [hrt.1, ← hv0, hcur]
  refine ⟨hmain.1, hmain.2, ?_, ?_⟩
  · intro s hs
    simp [undo, hs]
  · intro s hs
    simp [redo, hs]

/-- Claim C7, witness: the round trip on a store holding `0` with one change
to `1`. -/
theorem undo_redo_round_trip_witness :
    (undo (advanceTo (0 + DEBOUNCE_DELAY)
        (setStore ⟨.num 0, [.num 0], 0, none, 0⟩ 0 (.val (.num 1))))).store = .num 0
    ∧ (redo (undo (advanceTo (0 + DEBOUNCE_DELAY)
        (setStore ⟨.num 0, [.num 0], 0, none, 0⟩ 0 (.val (.num 1)))))).store
        = resolveNext (JSValue.num 0) (.val (.num 1))
    ∧ (∀ s : DataStore, s.currentIndex = 0 → undo s = s)
    ∧ (∀ s : DataStore, s.currentIndex = s.history.length - 1 → redo s = s) :=
  undo_redo_round_trip ⟨.num 0, [.num 0], 0, none, 0⟩ 0 (.val (.num 1)) (.num 0)
    (by simp) rfl (by decide) rfl
    (by simp [resolveNext, isPlainObject, deepEqual, strictEq])

theorem runBurst_pending (cs : List (Nat × Update)) (st : DataStore) (tp : Nat)
    (hp : st.pending = some (tp + DEBOUNCE_DELAY, st.store))
    (hok : burstOk st.store (some tp) cs = true) :
    runBurst st cs =
      { st with store := burstFinal st.store cs,
                pending := some (lastTime tp cs + DEBOUNCE_DELAY, burstFinal st.store cs),
                notifications := st.notifications + cs.length } := by
  induction cs generalizing st tp with
  | nil =>
      obtain ⟨s1, s2, s3, s4, s5⟩ := st
      simp only [DataStore.pending] at hp
      subst hp
      simp [runBurst, burstFinal, lastTime]
  | cons c rest ih =>
      obtain ⟨t, u⟩ := c
      simp only [burstOk, Bool.and_eq_true, decide_eq_true_eq, Bool.not_eq_true'] at hok
      obtain ⟨⟨⟨h1, h2⟩, h3⟩, h4⟩ := hok
      have hadv : advanceTo t st = st := by
        simp only [advanceTo, hp]
        rw [if_neg (by omega)]
      have hset : setStore st t u =
          { st with store := resolveNext st.store u,
                    pending := some (t + DEBOUNCE_DELAY, resolveNext st.store u),
                    notifications := st.notifications + 1 } := by
        simp [setStore, h3]
      show runBurst (setStore (advanceTo t st) t u) rest = _
      rw [hadv, hset]
      rw [ih _ t rfl h4]
      simp only [burstFinal, lastTime, List.length_cons]
      congr 1
      omega

/-- Claim C2 (confirmed): a burst of `N ≥ 1` accepted changes, each within the
debounce window (`DEBOUNCE_DELAY = 200` time units) of the previous one,
followed by silence past the window, appends exactly one new history entry
(evicting the oldest first when the cap is reached), and the snapshotted value
is the store value present when the timer finally fires — the last value of
the burst.  The burst starts from a settled store: no pending timer and the
cursor on the last entry. -/
theorem debounce_coalescing (st : DataStore) (t1 : Nat) (u1 : Update)
    (rest : List (Nat × Update)) (tEnd : Nat)
    (hpend : st.pending = none)
    (hacc : deepEqual st.store (resolveNext st.store u1) = false)
    (hok : burstOk (resolveNext st.store u1) (some t1) rest = true)
    (hsilence : lastTime t1 rest + DEBOUNCE_DELAY ≤ tEnd)
    (hcur : st.currentIndex = st.history.length - 1)
    (hne : st.history ≠ [])
    (hcap : st.history.length ≤ MAX_HISTORY) :
    (advanceTo tEnd (runBurst st ((t1, u1) :: rest))).history
        = (if st.history.length = MAX_HISTORY then st.history.drop 1 else st.history)
            ++ [burstFinal (resolveNext st.store u1) rest]
    ∧ (advanceTo tEnd (runBurst st ((t1, u1) :: rest))).store
        = burstFinal (resolveNext st.store u1) rest
    ∧ (advanceTo tEnd (runBurst st ((t1, u1) :: rest))).pending = none
    ∧ (advanceTo tEnd (runBurst st ((t1, u1) :: rest))).currentIndex
        = (advanceTo tEnd (runBurst st ((t1, u1) :: rest))).history.length - 1
    ∧ (advanceTo tEnd (runBurst st ((t1, u1) :: rest))).notifications
        = st.notifications + (rest.length + 1) := by
  have hlen : 0 < st.history.length := List.length_pos.mpr hne
  have htake : st.history.take (st.currentIndex + 1) = st.history := by
    rw [hcur]
    have h : st.history.length - 1 + 1 = st.history.length := by omega
    rw [h, List.take_length]
  have hadv1 : advanceTo t1 st = st := by
    simp [advanceTo, hpend]
  have hset1 : setStore st t1 u1 =
      { st with store := resolveNext st.store u1,
                pending := some (t1 + DEBOUNCE_DELAY, resolveNext st.store u1),
                notifications := st.notifications + 1 } := by
    simp [setStore, hacc]
  have hrun : runBurst st ((t1, u1) :: rest) =
      { st with store := burstFinal (resolveNext st.store u1) rest,
                pending := some (lastTime t1 rest + DEBOUNCE_DELAY,
                  burstFinal (resolveNext st.store u1) rest),
                notifications := st.notifications + 1 + rest.length } := by
    show runBurst (setStore (advanceTo t1 st) t1 u1) rest = _
    rw [hadv1, hset1]
    exact runBurst_pending rest _ t1 rfl hok
  have hfin : advanceTo tEnd (runBurst st ((t1, u1) :: rest)) =
      pushHistoryEntry
        { st with store := burstFinal (resolveNext st.store u1) rest,
                  pending := some (lastTime t1 rest + DEBOUNCE_DELAY,
                    burstFinal (resolveNext st.store u1) rest),
                  notifications := st.notifications + 1 + rest.length }
        (burstFinal (resolveNext st.store u1) rest) := by
    rw [hrun]
    simp only [advanceTo]
    rw [if_pos hsilence]
  by_cases hfull : st.history.length = MAX_HISTORY
  · have hpush := pushHistoryEntry_full
      { st with store := burstFinal (resolveNext st.store u1) rest,
                pending := some (lastTime t1 rest + DEBOUNCE_DELAY,
                  burstFinal (resolveNext st.store u1) rest),
                notifications := st.notifications + 1 + rest.length }
      (burstFinal (resolveNext st.store u1) rest) htake hfull
    rw [hfin, hpush]
    have h100 : st.history.length = 100 := hfull
    refine ⟨?_, rfl, rfl, ?_, ?_⟩
    · rw [if_pos hfull]
    · show st.history.length - 1 = (st.history.drop 1 ++ [_]).length - 1
      rw [List.length_append, List.length_drop, List.length_singleton]
      omega
    · show st.notifications + 1 + rest.length = st.notifications + (rest.length + 1)
      omega
  · have hroom : st.history.length < MAX_HISTORY := by omega
    have hpush := pushHistoryEntry_room
      { st with store := burstFinal (resolveNext st.store u1) rest,
                pending := some (lastTime t1 rest + DEBOUNCE_DELAY,
                  burstFinal (resolveNext st.store u1) rest),
                notifications := st.notifications + 1 + rest.length }
      (burstFinal (resolveNext st.store u1) rest) htake hroom
    rw [hfin, hpush]
    refine ⟨?_, rfl, rfl, ?_, ?_⟩
    · rw [if_neg hfull]
    · show st.history.length = (st.history ++ [_]).length - 1
      rw [List.length_append, List.length_singleton]
      omega
    · show st.notifications + 1 + rest.length = st.notifications + (rest.length + 1)
      omega

/-- Claim C2, witness: two accepted changes 100 time units apart (within the
200-unit window) followed by silence until instant 300 produce exactly one new
entry holding the last value `2`. -/
theorem debounce_coalescing_witness :
    (advanceTo 300 (runBurst ⟨.num 0, [.num 0], 0, none, 0⟩
        [(0, .val (.num 1)), (100, .val (.num 2))])).history = [.num 0, .num 2]
    ∧ (advanceTo 300 (runBurst ⟨.num 0, [.num 0], 0, none, 0⟩
        [(0, .val (.num 1)), (100, .val (.num 2))])).store = .num 2
    ∧ (advanceTo 300 (runBurst ⟨.num 0, [.num 0], 0, none, 0⟩
        [(0, .val (.num 1)), (100, .val (.num 2))])).pending = none := by
  have h := debounce_coalescing ⟨.num 0, [.num 0], 0, none, 0⟩ 0 (.val (.num 1))
    [(100, .val (.num 2))] 300 rfl
    (by simp [resolveNext, isPlainObject, deepEqual, strictEq])
    (by simp [burstOk, resolveNext, isPlainObject, deepEqual, strictEq, DEBOUNCE_DELAY])
    (by simp [lastTime, DEBOUNCE_DELAY])
    rfl (by simp) (by decide)
  refine ⟨?_, ?_, h.2.2.1⟩
  · rw [h.1]
    simp [MAX_HISTORY, burstFinal, resolveNext, isPlainObject]
  · rw [h.2.1]
    simp [burstFinal, resolveNext, isPlainObject]

theorem jsGet_obj (fs : List (String × JSValue)) (k : String) :
    jsGet (.obj fs) k =
      match fs.find? (fun p => p.1 == k) with
      | some p => p.2
      | none => .undefined := rfl

theorem isPlainObject_jsSet (fs : List (String × JSValue)) (k : String) (x : JSValue) :
    isPlainObject (jsSet (.obj fs) k x) = true := rfl

theorem jsGet_jsSet_self (fs : List (String × JSValue)) (k : String) (x : JSValue) :
    jsGet (jsSet (.obj fs) k x) k = x := by
  induction fs with
  | nil => simp [jsSet, setField, jsGet, jsEntries]
  | cons p rest ih =>
      obtain ⟨k', v'⟩ := p
      by_cases h : k' = k
      · simp [jsSet, setField, h, jsGet, jsEntries]
      · have hb : (k' == k) = false := by simpa using h
        simp only [jsSet, jsGet, jsEntries, setField, hb, Bool.false_eq_true, if_false,
          List.find?] at ih ⊢
        exact ih

theorem jsGet_jsSet_ne (fs : List (String × JSValue)) (k k' : String) (x : JSValue)
    (h : k ≠ k') :
    jsGet (jsSet (.obj fs) k' x) k = jsGet (.obj fs) k := by
  induction fs with
  | nil =>
      have hb : (k' == k) = false := by simpa using (Ne.symm h)
      simp [jsSet, setField, jsGet, jsEntries, List.find?, hb]
  | cons p rest ih =>
      obtain ⟨k0, v0⟩ := p
      by_cases h0 : k0 = k'
      · have hb : (k0 == k') = true := by simpa using h0
        have hbk : (k0 == k) = false := by
          subst h0
          simpa using (Ne.symm h)
        simp [jsSet, setField, hb, jsGet, jsEntries, List.find?, hbk]
      · have hb : (k0 == k') = false := by simpa using h0
        by_cases h1 : k0 = k
        · have hbk : (k0 == k) = true := by simpa using h1
          simp [jsSet, setField, hb, jsGet, jsEntries, List.find?, hbk]
        · have hbk : (k0 == k) = false := by simpa using h1
          simp only [jsSet, jsGet, jsEntries, setField, hb, hbk, Bool.false_eq_true, if_false,
            List.find?] at ih ⊢
          exact ih

theorem deepMergeEntries_get (es : List (String × JSValue)) (acc : JSValue)
    (hacc : isPlainObject acc = true) (hnd : (es.map Prod.fst).Nodup) (k : String) :
    jsGet (deepMergeEntries acc es) k =
      match es.find? (fun p => p.1 == k) with
      | none => jsGet acc k
      | some p =>
          if isUndefined p.2 then jsGet acc k
          else if isPlainObject (jsGet acc k) && isPlainObject p.2 then
            deepMerge (jsGet acc k) p.2
          else p.2 := by
  induction es generalizing acc with
  | nil => simp [deepMergeEntries, List.find?]
  | cons p rest ih =>
      obtain ⟨k', sv⟩ := p
      obtain ⟨fs, hfs⟩ : ∃ fs, acc = .obj fs := by
        cases acc <;> simp_all [isPlainObject]
      subst hfs
      simp only [List.map_cons, List.nodup_cons] at hnd
      obtain ⟨hk', hrest⟩ := hnd
      by_cases hkk : k' = k
      · subst hkk
        have hfindrest : rest.find? (fun p => p.1 == k') = none := by
          rw [List.find?_eq_none]
          intro p hp
          simp only [beq_iff_eq]
          intro hc
          exact hk' (hc ▸ List.mem_map_of_mem Prod.fst hp)
        by_cases hu : isUndefined sv = true
        · simp only [deepMergeEntries, hu, if_true]
          rw [ih (.obj fs) rfl hrest]
          simp [List.find?, hfindrest, hu]
        · simp only [deepMergeEntries, hu, Bool.false_eq_true, if_false]
          by_cases hpl : (isPlainObject (jsGet (.obj fs) k') && isPlainObject sv) = true
          · rw [if_pos hpl]
            rw [ih _ (isPlainObject_jsSet fs k' _) hrest]
            simp [List.find?, hfindrest, hu, hpl, jsGet_jsSet_self]
          · rw [if_neg hpl]
            rw [ih _ (isPlainObject_jsSet fs k' _) hrest]
            simp [List.find?, hfindrest, hu, hpl, jsGet_jsSet_self]
      · have hne : k ≠ k' := fun hc => hkk hc.symm
        have hbk : (k' == k) = false := by simpa using hkk
        by_cases hu : isUndefined sv = true
        · simp only [deepMergeEntries, hu, if_true]
          rw [ih (.obj fs) rfl hrest]
          simp [List.find?, hbk]
        · simp only [deepMergeEntries, hu, Bool.false_eq_true, if_false]
          by_cases hpl : (isPlainObject (jsGet (.obj fs) k') && isPlainObject sv) = true
          · rw [if_pos hpl]
            rw [ih _ (isPlainObject_jsSet fs k' _) hrest]
            simp [List.find?, hbk, jsGet_jsSet_ne fs _ _ _ hne]
          · rw [if_neg hpl]
            rw [ih _ (isPlainObject_jsSet fs k' _) hrest]
            simp [List.find?, hbk, jsGet_jsSet_ne fs _ _ _ hne]

/-- Claim C9 (confirmed): for records `a` and `b`, `deepMerge a b` keeps every
key of `a` that is not a key of `b`; a key of `b` whose value is `undefined`
is skipped, keeping `a`'s value; and a key of `b` with a defined value, where
the two values are not both records, ends up with `b`'s value — so a partial
merge never deletes a key by omission or by `undefined`. -/
theorem deepMerge_partial_overlay (fa fb : List (String × JSValue))
    (hnd : (fb.map Prod.fst).Nodup) :
    (∀ k, k ∉ fb.map Prod.fst →
        jsGet (deepMerge (.obj fa) (.obj fb)) k = jsGet (.obj fa) k)
    ∧ (∀ k, k ∈ fb.map Prod.fst → isUndefined (jsGet (.obj fb) k) = true →
        jsGet (deepMerge (.obj fa) (.obj fb)) k = jsGet (.obj fa) k)
    ∧ (∀ k, k ∈ fb.map Prod.fst → isUndefined (jsGet (.obj fb) k) = false →
        (isPlainObject (jsGet (.obj fa) k) && isPlainObject (jsGet (.obj fb) k)) = false →
        jsGet (deepMerge (.obj fa) (.obj fb)) k = jsGet (.obj fb) k) := by
  have hmerge : deepMerge (.obj fa) (.obj fb) = deepMergeEntries (.obj fa) fb := by
    simp [deepMerge, isNullish]
  have hget := fun k => deepMergeEntries_get fb (.obj fa) rfl hnd k
  refine ⟨?_, ?_, ?_⟩
  · intro k hk
    have hfind : fb.find? (fun p => p.1 == k) = none := by
      rw [List.find?_eq_none]
      intro p hp
      simp only [beq_iff_eq]
      intro hc
      exact hk (hc ▸ List.mem_map_of_mem Prod.fst hp)
    rw [hmerge, hget k, hfind]
  · intro k hk hu
    rcases hfind : fb.find? (fun p => p.1 == k) with _ | p
    · rw [hmerge, hget k, hfind]
    · have hv : jsGet (.obj fb) k = p.2 := by
        rw [jsGet_obj, hfind]
      rw [hv] at hu
      rw [hmerge, hget k, hfind]
      simp [hu]
  · intro k hk hu hpl
    rcases hfind : fb.find? (fun p => p.1 == k) with _ | p
    · exfalso
      rw [List.find?_eq_none] at hfind
      obtain ⟨p, hp, hp1⟩ := List.mem_map.mp hk
      exact hfind p hp (by simpa using hp1)
    · have hv : jsGet (.obj fb) k = p.2 := by
        rw [jsGet_obj, hfind]
      rw [hv] at hu hpl
      rw [hmerge, hget k, hfind]
      simp [hu, hpl, hv]

/-- Claim C9, witness: merging `{b: 2, c: undefined}` into `{a: 1, c: 3}`
keeps `a = 1` (absent from the partial), keeps `c = 3` (explicitly
`undefined` in the partial), and overlays `b = 2`. -/
theorem deepMerge_partial_overlay_witness :
    jsGet (deepMerge (.obj [("a", .num 1), ("c", .num 3)])
        (.obj [("b", .num 2), ("c", .undefined)])) "a" = .num 1
    ∧ jsGet (deepMerge (.obj [("a", .num 1), ("c", .num 3)])
        (.obj [("b", .num 2), ("c", .undefined)])) "c" = .num 3
    ∧ jsGet (deepMerge (.obj [("a", .num 1), ("c", .num 3)])
        (.obj [("b", .num 2), ("c", .undefined)])) "b" = .num 2 := by
  have h := deepMerge_partial_overlay [("a", .num 1), ("c", .num 3)]
    [("b", .num 2), ("c", .undefined)] (by decide)
  refine ⟨?_, ?_, ?_⟩
  · rw [h.1 "a" (by decide)]
    rfl
  · rw [h.2.1 "c" (by decide) (by rfl)]
    rfl
  · rw [h.2.2 "b" (by decide) (by rfl) (by rfl)]
    rfl

theorem digitsRev_ne_nil (n : Nat) : digitsRev n ≠ [] := by
  rw [digitsRev]
  split <;> simp

theorem digitsRev_lt (n : Nat) : ∀ d ∈ digitsRev n, d < 10 := by
  rw [digitsRev]
  split
  · next h => simpa using h
  · next h =>
      intro d hd
      rcases List.mem_cons.mp hd with h1 | h1
      · subst h1
        exact Nat.mod_lt _ (by omega)
      · exact digitsRev_lt (n / 10) d h1
termination_by n
decreasing_by exact Nat.div_lt_self (by omega) (by omega)

theorem digitsRev_inj : ∀ m n : Nat, digitsRev m = digitsRev n → m = n := by
  intro m
  induction m using Nat.strong_induction_on with
  | _ m ih =>
      intro n h
      have em : digitsRev m = if m < 10 then [m] else (m % 10) :: digitsRev (m / 10) := by
        rw [digitsRev]
      have en : digitsRev n = if n < 10 then [n] else (n % 10) :: digitsRev (n / 10) := by
        rw [digitsRev]
      rw [em, en] at h
      by_cases hm : m < 10
      · rw [if_pos hm] at h
        by_cases hn : n < 10
        · rw [if_pos hn] at h
          simpa using h
        · rw [if_neg hn] at h
          exfalso
          have := congrArg List.length h
          simp at this
          exact digitsRev_ne_nil (n / 10) this
      · rw [if_neg hm] at h
        by_cases hn : n < 10
        · rw [if_pos hn] at h
          exfalso
          have := congrArg List.length h
          simp at this
          exact digitsRev_ne_nil (m / 10) this
        · rw [if_neg hn] at h
          simp only [List.cons.injEq] at h
          obtain ⟨h1, h2⟩ := h
          have h3 : m / 10 = n / 10 :=
            ih (m / 10) (Nat.div_lt_self (by omega) (by omega)) (n / 10) h2
          have hm10 := Nat.div_add_mod m 10
          have hn10 := Nat.div_add_mod n 10
          omega

theorem digitChar_inj_lt : ∀ d, d < 10 → ∀ e, e < 10 → Nat.digitChar d = Nat.digitChar e → d = e := by
  decide

theorem map_digitChar_inj : ∀ ds es : List Nat, (∀ d ∈ ds, d < 10) → (∀ e ∈ es, e < 10) →
    ds.map Nat.digitChar = es.map Nat.digitChar → ds = es := by
  intro ds
  induction ds with
  | nil =>
      intro es _ _ h
      cases es with
      | nil => rfl
      | cons e es => simp at h
  | cons d ds ih =>
      intro es hds hes h
      cases es with
      | nil => simp at h
      | cons e es =>
          simp only [List.map_cons, List.cons.injEq] at h
          obtain ⟨h1, h2⟩ := h
          have hd := hds d (by simp)
          have he := hes e (by simp)
          have : d = e := digitChar_inj_lt d hd e he h1
          subst this
          rw [ih es (fun x hx => hds x (by simp [hx])) (fun x hx => hes x (by simp [hx])) h2]

theorem toDigitsCore_eq_digitsRev :
    ∀ (fuel n : Nat) (ds : List Char), n < 10 ^ (fuel + 1) →
      Nat.toDigitsCore 10 (fuel + 1) n ds = (digitsRev n).reverse.map Nat.digitChar ++ ds := by
  intro fuel
  induction fuel with
  | zero =>
      intro n ds h
      have hn : n < 10 := by simpa using h
      have h0 : n / 10 = 0 := Nat.div_eq_of_lt hn
      simp only [Nat.toDigitsCore, h0, if_pos]
      have : digitsRev n = [n] := by rw [digitsRev, if_pos hn]
      rw [this]
      simp [Nat.mod_eq_of_lt hn]
  | succ fuel ih =>
      intro n ds h
      by_cases hn : n < 10
      · have h0 : n / 10 = 0 := Nat.div_eq_of_lt hn
        simp only [Nat.toDigitsCore, h0, if_pos]
        have : digitsRev n = [n] := by rw [digitsRev, if_pos hn]
        rw [this]
        simp [Nat.mod_eq_of_lt hn]
      · have h0 : n / 10 ≠ 0 := by omega
        show (if n / 10 = 0 then Nat.digitChar (n % 10) :: ds
              else Nat.toDigitsCore 10 (fuel + 1) (n / 10) (Nat.digitChar (n % 10) :: ds))
            = (digitsRev n).reverse.map Nat.digitChar ++ ds
        rw [if_neg h0]
        have hlt : n / 10 < 10 ^ (fuel + 1) := by
          have := Nat.pow_succ 10 (fuel + 1)
          exact Nat.div_lt_of_lt_mul (by omega)
        rw [ih (n / 10) (Nat.digitChar (n % 10) :: ds) hlt]
        have hdig : digitsRev n = (n % 10) :: digitsRev (n / 10) := by
          rw [digitsRev, if_neg hn]
        rw [hdig]
        simp

/-- Decimal string representations of distinct naturals are distinct — the
stringified indices an array contributes as object keys never collide. -/
theorem natToString_inj : ∀ m n : Nat, toString m = toString n → m = n := by
  intro m n h
  have hrepr : Nat.repr m = Nat.repr n := h
  have hm : Nat.repr m = ((digitsRev m).reverse.map Nat.digitChar).asString := by
    show (Nat.toDigitsCore 10 (m + 1) m []).asString = _
    rw [toDigitsCore_eq_digitsRev m m []
      (lt_of_lt_of_le (Nat.lt_pow_self (by omega) m) (Nat.pow_le_pow_right (by omega) (by omega)))]
    simp
  have hn : Nat.repr n = ((digitsRev n).reverse.map Nat.digitChar).asString := by
    show (Nat.toDigitsCore 10 (n + 1) n []).asString = _
    rw [toDigitsCore_eq_digitsRev n n []
      (lt_of_lt_of_le (Nat.lt_pow_self (by omega) n) (Nat.pow_le_pow_right (by omega) (by omega)))]
    simp
  rw [hm, hn] at hrepr
  have hdata : (digitsRev m).reverse.map Nat.digitChar = (digitsRev n).reverse.map Nat.digitChar := by
    have := congrArg String.data hrepr
    simpa [List.asString] using this
  have hrev : (digitsRev m).reverse = (digitsRev n).reverse :=
    map_digitChar_inj _ _ (fun d hd => digitsRev_lt m d (List.mem_reverse.mp hd))
      (fun e he => digitsRev_lt n e (List.mem_reverse.mp he)) hdata
  exact digitsRev_inj m n (List.reverse_injective hrev)

theorem jsKeys_arr (xs : List JSValue) :
    jsKeys (.arr xs) = (List.range xs.length).map toString := by
  show (xs.enum.map fun p => (toString p.1, p.2)).map Prod.fst = _
  rw [List.map_map, ← List.enum_map_fst xs, List.map_map]
  rfl

theorem jsKeys_arr_nodup (xs : List JSValue) : (jsKeys (.arr xs)).Nodup := by
  rw [jsKeys_arr]
  exact List.Nodup.map (fun a b h => natToString_inj a b h) (List.nodup_range _)

theorem mem_jsKeys_arr (xs : List JSValue) (k : String) :
    k ∈ jsKeys (.arr xs) ↔ ∃ j, j < xs.length ∧ toString j = k := by
  rw [jsKeys_arr]
  simp [List.mem_map, List.mem_range]

theorem WFElems_iff (xs : List JSValue) : JSValue.WFElems xs ↔ ∀ x ∈ xs, x.WF := by
  induction xs with
  | nil => simp [JSValue.WFElems]
  | cons x xs ih => simp [JSValue.WFElems, ih]

theorem WFFields_iff (fs : List (String × JSValue)) :
    JSValue.WFFields fs ↔ ∀ p ∈ fs, JSValue.WF p.2 := by
  induction fs with
  | nil => simp [JSValue.WFFields]
  | cons p fs ih =>
      obtain ⟨k, v⟩ := p
      simp [JSValue.WFFields, ih]

theorem WF_arr_iff (xs : List JSValue) : (JSValue.arr xs).WF ↔ JSValue.WFElems xs := by
  simp [JSValue.WF]

theorem WF_obj_iff (fs : List (String × JSValue)) :
    (JSValue.obj fs).WF ↔ (fs.map Prod.fst).Nodup ∧ JSValue.WFFields fs := by
  simp [JSValue.WF]

theorem WF_scalar (v : JSValue) (h : isScalar v = true) : v.WF := by
  cases v <;> simp_all [JSValue.WF, isScalar]

theorem WF_jsGet (b : JSValue) (hb : b.WF) (k : String) : (jsGet b k).WF := by
  cases b with
  | obj fs =>
      simp only [jsGet, jsEntries]
      cases hfind : fs.find? (fun p => p.1 == k) with
      | none => simp [JSValue.WF]
      | some p =>
          have hp := List.mem_of_find?_eq_some hfind
          exact ((WFFields_iff fs).mp ((WF_obj_iff fs).mp hb).2) p hp
  | arr xs =>
      simp only [jsGet, jsEntries]
      cases hfind : (xs.enum.map fun p => (toString p.1, p.2)).find? (fun p => p.1 == k) with
      | none => simp [JSValue.WF]
      | some p =>
          have hp := List.mem_of_find?_eq_some hfind
          obtain ⟨q, hq, hqp⟩ := List.mem_map.mp hp
          have hq2 : q.2 ∈ xs := List.snd_mem_of_mem_enumFrom hq
          show JSValue.WF p.2
          rw [← hqp]
          exact ((WFElems_iff xs).mp ((WF_arr_iff xs).mp hb)) _ hq2
  | null => simp [jsGet, jsEntries, JSValue.WF]
  | undefined => simp [jsGet, jsEntries, JSValue.WF]
  | bool b => simp [jsGet, jsEntries, JSValue.WF]
  | num n => simp [jsGet, jsEntries, JSValue.WF]
  | str s => simp [jsGet, jsEntries, JSValue.WF]

theorem sameKeySet_iff (ks ls : List String) :
    sameKeySet ks ls = true ↔ ks ⊆ ls ∧ ls ⊆ ks := by
  constructor
  · intro h
    simp only [sameKeySet, Bool.and_eq_true, List.all_eq_true] at h
    constructor
    · intro a ha
      simpa using h.1 a ha
    · intro a ha
      simpa using h.2 a ha
  · intro h
    simp only [sameKeySet, Bool.and_eq_true, List.all_eq_true]
    constructor
    · intro a ha
      simpa using h.1 ha
    · intro a ha
      simpa using h.2 ha

theorem deepEqualFields_contains (fs : List (String × JSValue)) (d : JSValue)
    (h : deepEqualFields fs d = true) : ∀ p ∈ fs, (jsKeys d).contains p.1 = true := by
  induction fs with
  | nil => simp
  | cons q rest ih =>
      obtain ⟨k, v⟩ := q
      simp only [deepEqualFields, Bool.and_eq_true] at h
      intro p hp
      rcases List.mem_cons.mp hp with h1 | h1
      · subst h1
        exact h.1.1
      · exact ih h.2 p h1

theorem deepEqualIndexed_contains (xs : List JSValue) (i : Nat) (d : JSValue)
    (h : deepEqualIndexed xs i d = true) :
    ∀ j, j < xs.length → (jsKeys d).contains (toString (i + j)) = true := by
  induction xs generalizing i with
  | nil => simp
  | cons x rest ih =>
      simp only [deepEqualIndexed, Bool.and_eq_true] at h
      intro j hj
      cases j with
      | zero => simpa using h.1.1
      | succ j =>
          have := ih (i + 1) h.2 j (by simpa using hj)
          rw [show i + (j + 1) = i + 1 + j by omega]
          exact this

theorem node_fields (fs : List (String × JSValue)) (d : JSValue)
    (hwalkEq : (∀ p ∈ fs, (jsKeys d).contains p.1 = true) →
        deepEqualFields fs d = structIdentFields fs d)
    (hndf : (fs.map Prod.fst).Nodup) (hndd : (jsKeys d).Nodup) :
    (((fs.map Prod.fst).length == (jsKeys d).length) && deepEqualFields fs d)
      = (sameKeySet (fs.map Prod.fst) (jsKeys d) && structIdentFields fs d) := by
  rw [Bool.eq_iff_iff]
  simp only [Bool.and_eq_true, beq_iff_eq]
  constructor
  · rintro ⟨hlen, hwalk⟩
    have hcont := deepEqualFields_contains fs d hwalk
    have hsub : (fs.map Prod.fst) ⊆ jsKeys d := by
      intro k hk
      obtain ⟨p, hp, hpk⟩ := List.mem_map.mp hk
      have := hcont p hp
      rw [hpk] at this
      simpa using this
    have hperm : (fs.map Prod.fst).Perm (jsKeys d) :=
      (List.subperm_of_subset hndf hsub).perm_of_length_le (by omega)
    refine ⟨(sameKeySet_iff _ _).mpr ⟨hsub, hperm.symm.subset⟩, ?_⟩
    rw [← hwalkEq hcont]
    exact hwalk
  · rintro ⟨hsk, hwalk⟩
    obtain ⟨hsub1, hsub2⟩ := (sameKeySet_iff _ _).mp hsk
    have hcont : ∀ p ∈ fs, (jsKeys d).contains p.1 = true := by
      intro p hp
      have : p.1 ∈ jsKeys d := hsub1 (List.mem_map_of_mem Prod.fst hp)
      simpa using this
    have hle1 := (List.subperm_of_subset hndf hsub1).length_le
    have hle2 := (List.subperm_of_subset hndd hsub2).length_le
    refine ⟨by omega, ?_⟩
    rw [hwalkEq hcont]
    exact hwalk

theorem node_indexed (xs : List JSValue) (d : JSValue)
    (hwalkEq : (∀ j, j < xs.length → (jsKeys d).contains (toString (0 + j)) = true) →
        deepEqualIndexed xs 0 d = structIdentIndexed xs 0 d)
    (hndd : (jsKeys d).Nodup) :
    (((jsKeys (.arr xs)).length == (jsKeys d).length) && deepEqualIndexed xs 0 d)
      = (sameKeySet (jsKeys (.arr xs)) (jsKeys d) && structIdentIndexed xs 0 d) := by
  have hnda : (jsKeys (.arr xs)).Nodup := jsKeys_arr_nodup xs
  rw [Bool.eq_iff_iff]
  simp only [Bool.and_eq_true, beq_iff_eq]
  constructor
  · rintro ⟨hlen, hwalk⟩
    have hcont := deepEqualIndexed_contains xs 0 d hwalk
    have hsub : jsKeys (.arr xs) ⊆ jsKeys d := by
      intro k hk
      obtain ⟨j, hj, hjk⟩ := (mem_jsKeys_arr xs k).mp hk
      have := hcont j hj
      rw [show (0 : Nat) + j = j by omega, hjk] at this
      simpa using this
    have hperm : (jsKeys (.arr xs)).Perm (jsKeys d) :=
      (List.subperm_of_subset hnda hsub).perm_of_length_le (by omega)
    refine ⟨(sameKeySet_iff _ _).mpr ⟨hsub, hperm.symm.subset⟩, ?_⟩
    rw [← hwalkEq hcont]
    exact hwalk
  · rintro ⟨hsk, hwalk⟩
    obtain ⟨hsub1, hsub2⟩ := (sameKeySet_iff _ _).mp hsk
    have hcont : ∀ j, j < xs.length → (jsKeys d).contains (toString (0 + j)) = true := by
      intro j hj
      have : toString j ∈ jsKeys d := hsub1 ((mem_jsKeys_arr xs (toString j)).mpr ⟨j, hj, rfl⟩)
      rw [show (0 : Nat) + j = j by omega]
      simpa using this
    have hle1 := (List.subperm_of_subset hnda hsub1).length_le
    have hle2 := (List.subperm_of_subset hndd hsub2).length_le
    refine ⟨by omega, ?_⟩
    rw [hwalkEq hcont]
    exact hwalk

theorem WFElems_cons (x : JSValue) (xs : List JSValue) :
    JSValue.WFElems (x :: xs) ↔ x.WF ∧ JSValue.WFElems xs := by
  simp [JSValue.WFElems]

theorem WFFields_cons (k : String) (v : JSValue) (rest : List (String × JSValue)) :
    JSValue.WFFields ((k, v) :: rest) ↔ v.WF ∧ JSValue.WFFields rest := by
  simp [JSValue.WFFields]

theorem deepEqual_arr_arr (xs ys : List JSValue) :
    deepEqual (.arr xs) (.arr ys) = ((xs.length == ys.length) && deepEqualElems xs ys) := by
  simp [deepEqual, strictEq, isNullish, typeofObject]

theorem deepEqual_obj_node (fs : List (String × JSValue)) (d : JSValue)
    (hd : typeofObject d = true) (hdn : isNullish d = false) :
    deepEqual (.obj fs) d
      = (((fs.map Prod.fst).length == (jsKeys d).length) && deepEqualFields fs d) := by
  cases d <;> simp_all [deepEqual, strictEq, isNullish, typeofObject, jsKeys, jsEntries]

theorem deepEqual_arr_obj (xs : List JSValue) (gs : List (String × JSValue)) :
    deepEqual (.arr xs) (.obj gs)
      = (((jsKeys (.arr xs)).length == (jsKeys (.obj gs)).length)
          && deepEqualIndexed xs 0 (.obj gs)) := by
  simp [deepEqual, strictEq, isNullish, typeofObject]

theorem structIdent_arr_arr (xs ys : List JSValue) :
    structIdent (.arr xs) (.arr ys) = ((xs.length == ys.length) && structIdentElems xs ys) := by
  simp [structIdent]

theorem structIdent_obj_obj (fs gs : List (String × JSValue)) :
    structIdent (.obj fs) (.obj gs)
      = (sameKeySet (fs.map Prod.fst) (gs.map Prod.fst) && structIdentFields fs (.obj gs)) := by
  simp [structIdent]

theorem structIdent_arr_obj (xs : List JSValue) (gs : List (String × JSValue)) :
    structIdent (.arr xs) (.obj gs)
      = (sameKeySet (jsKeys (.arr xs)) (gs.map Prod.fst) && structIdentIndexed xs 0 (.obj gs)) := by
  simp [structIdent]

theorem structIdent_obj_arr (fs : List (String × JSValue)) (ys : List JSValue) :
    structIdent (.obj fs) (.arr ys)
      = (sameKeySet (fs.map Prod.fst) (jsKeys (.arr ys)) && structIdentFields fs (.arr ys)) := by
  simp [structIdent]

theorem decide_eq_beq {α : Type} [DecidableEq α] [BEq α] [LawfulBEq α] (a b : α) :
    decide (a = b) = (a == b) := by
  rw [Bool.eq_iff_iff]
  simp

theorem deepEqual_eq_structIdent_scalar (a b : JSValue)
    (h : isScalar a = true ∨ isScalar b = true) :
    deepEqual a b = structIdent a b := by
  cases a <;> cases b <;>
    simp_all [deepEqual, structIdent, isScalar, strictEq, isNullish, typeofObject,
      decide_eq_beq]

mutual

theorem deepEqual_eq_structIdent : ∀ (a b : JSValue), a.WF → b.WF →
    deepEqual a b = structIdent a b
  | .arr xs, .arr ys, ha, hb => by
      rw [deepEqual_arr_arr, structIdent_arr_arr,
        deepEqualElems_eq_structIdentElems xs ys ((WF_arr_iff xs).mp ha) ((WF_arr_iff ys).mp hb)]
  | .arr xs, .obj gs, ha, hb => by
      rw [deepEqual_arr_obj, structIdent_arr_obj]
      exact node_indexed xs (.obj gs)
        (fun hc => deepEqualIndexed_eq_structIdentIndexed xs 0 (.obj gs)
          ((WF_arr_iff xs).mp ha) hb hc)
        ((WF_obj_iff gs).mp hb).1
  | .obj fs, .arr ys, ha, hb => by
      rw [deepEqual_obj_node fs (.arr ys) rfl rfl, structIdent_obj_arr]
      exact node_fields fs (.arr ys)
        (fun hc => deepEqualFields_eq_structIdentFields fs (.arr ys)
          ((WF_obj_iff fs).mp ha).2 hb hc)
        ((WF_obj_iff fs).mp ha).1 (jsKeys_arr_nodup ys)
  | .obj fs, .obj gs, ha, hb => by
      rw [deepEqual_obj_node fs (.obj gs) rfl rfl, structIdent_obj_obj]
      exact node_fields fs (.obj gs)
        (fun hc => deepEqualFields_eq_structIdentFields fs (.obj gs)
          ((WF_obj_iff fs).mp ha).2 hb hc)
        ((WF_obj_iff fs).mp ha).1 ((WF_obj_iff gs).mp hb).1
  | .null, b, _, _ => deepEqual_eq_structIdent_scalar .null b (Or.inl rfl)
  | .undefined, b, _, _ => deepEqual_eq_structIdent_scalar .undefined b (Or.inl rfl)
  | .bool x, b, _, _ => deepEqual_eq_structIdent_scalar (.bool x) b (Or.inl rfl)
  | .num x, b, _, _ => deepEqual_eq_structIdent_scalar (.num x) b (Or.inl rfl)
  | .str x, b, _, _ => deepEqual_eq_structIdent_scalar (.str x) b (Or.inl rfl)
  | .arr xs, .null, _, _ => deepEqual_eq_structIdent_scalar (.arr xs) .null (Or.inr rfl)
  | .arr xs, .undefined, _, _ => deepEqual_eq_structIdent_scalar (.arr xs) .undefined (Or.inr rfl)
  | .arr xs, .bool y, _, _ => deepEqual_eq_structIdent_scalar (.arr xs) (.bool y) (Or.inr rfl)
  | .arr xs, .num y, _, _ => deepEqual_eq_structIdent_scalar (.arr xs) (.num y) (Or.inr rfl)
  | .arr xs, .str y, _, _ => deepEqual_eq_structIdent_scalar (.arr xs) (.str y) (Or.inr rfl)
  | .obj fs, .null, _, _ => deepEqual_eq_structIdent_scalar (.obj fs) .null (Or.inr rfl)
  | .obj fs, .undefined, _, _ => deepEqual_eq_structIdent_scalar (.obj fs) .undefined (Or.inr rfl)
  | .obj fs, .bool y, _, _ => deepEqual_eq_structIdent_scalar (.obj fs) (.bool y) (Or.inr rfl)
  | .obj fs, .num y, _, _ => deepEqual_eq_structIdent_scalar (.obj fs) (.num y) (Or.inr rfl)
  | .obj fs, .str y, _, _ => deepEqual_eq_structIdent_scalar (.obj fs) (.str y) (Or.inr rfl)

theorem deepEqualElems_eq_structIdentElems : ∀ (xs ys : List JSValue),
    JSValue.WFElems xs → JSValue.WFElems ys → deepEqualElems xs ys = structIdentElems xs ys
  | [], ys, _, _ => by simp [deepEqualElems, structIdentElems]
  | x :: xs, [], _, _ => by simp [deepEqualElems, structIdentElems]
  | x :: xs, y :: ys, hx, hy => by
      obtain ⟨hx1, hx2⟩ := (WFElems_cons x xs).mp hx
      obtain ⟨hy1, hy2⟩ := (WFElems_cons y ys).mp hy
      simp only [deepEqualElems, structIdentElems]
      rw [deepEqual_eq_structIdent x y hx1 hy1,
        deepEqualElems_eq_structIdentElems xs ys hx2 hy2]

theorem deepEqualFields_eq_structIdentFields : ∀ (fs : List (String × JSValue)) (d : JSValue),
    JSValue.WFFields fs → d.WF → (∀ p ∈ fs, (jsKeys d).contains p.1 = true) →
    deepEqualFields fs d = structIdentFields fs d
  | [], d, _, _, _ => by simp [deepEqualFields, structIdentFields]
  | (k, v) :: rest, d, hf, hd, hc => by
      obtain ⟨h1, h2⟩ := (WFFields_cons k v rest).mp hf
      simp only [deepEqualFields, structIdentFields]
      rw [hc (k, v) (by simp),
        deepEqual_eq_structIdent v (jsGet d k) h1 (WF_jsGet d hd k),
        deepEqualFields_eq_structIdentFields rest d h2 hd (fun p hp => hc p (by simp [hp]))]
      simp

theorem deepEqualIndexed_eq_structIdentIndexed : ∀ (xs : List JSValue) (i : Nat) (d : JSValue),
    JSValue.WFElems xs → d.WF →
    (∀ j, j < xs.length → (jsKeys d).contains (toString (i + j)) = true) →
    deepEqualIndexed xs i d = structIdentIndexed xs i d
  | [], _, _, _, _, _ => by simp [deepEqualIndexed, structIdentIndexed]
  | x :: xs, i, d, hx, hd, hc => by
      obtain ⟨h1, h2⟩ := (WFElems_cons x xs).mp hx
      have h0 : (jsKeys d).contains (toString i) = true := by
        have := hc 0 (by simp)
        simpa using this
      simp only [deepEqualIndexed, structIdentIndexed]
      rw [h0, deepEqual_eq_structIdent x (jsGet d (toString i)) h1 (WF_jsGet d hd _),
        deepEqualIndexed_eq_structIdentIndexed xs (i + 1) d h2 hd (fun j hj => by
          have := hc (j + 1) (by simpa using hj)
          rw [show i + (j + 1) = i + 1 + j by omega] at this
          exact this)]
      simp

end

/-- Claim C4, counterexample: `deepEqual` explicitly compares arrays only
when *both* operands are arrays; a sequence/record pair falls through to the
own-enumerable-key comparison, so the empty sequence and the empty record —
both well-formed — are reported equal, while the specification's structural
identity ("a sequence and a record are never structurally identical",
embedded as `specStructEq`) rejects them. -/
theorem deepEqual_mixed_counterexample :
    deepEqual (.arr []) (.obj []) = true
    ∧ specStructEq (.arr []) (.obj []) = false
    ∧ (JSValue.arr []).WF ∧ (JSValue.obj []).WF := by
  refine ⟨?_, ?_, ?_, ?_⟩
  · simp [deepEqual, strictEq, isNullish, typeofObject, jsKeys, jsEntries, deepEqualIndexed]
  · simp [specStructEq, isScalar]
  · simp [JSValue.WF, JSValue.WFElems]
  · simp [JSValue.WF, JSValue.WFFields]

/-- Claim C4, amended: for all well-formed values `a` and `b`, `deepEqual a b`
is true exactly when `a` and `b` are structurally identical in the sense
`deepEqual` implements (`structIdent`): the same scalar value, same-length
sequences with pairwise-equal elements in order, or records with the same key
set and pairwise-equal values per key (key order irrelevant) — except that a
sequence and a record are *not* automatically distinct: they are compared as
records over their own enumerable keys, a sequence contributing its elements
under their stringified indices. -/
theorem deepEqual_decides_structural_identity (a b : JSValue) (ha : a.WF) (hb : b.WF) :
    deepEqual a b = structIdent a b :=
  deepEqual_eq_structIdent a b ha hb

/-- Claim C4, witness for the amended theorem: the singleton sequence `[1]`
and the record `{"0": 1}` (both well-formed). -/
theorem deepEqual_decides_structural_identity_witness :
    deepEqual (.arr [.num 1]) (.obj [("0", .num 1)])
      = structIdent (.arr [.num 1]) (.obj [("0", .num 1)]) :=
  deepEqual_decides_structural_identity (.arr [.num 1]) (.obj [("0", .num 1)])
    (by simp [JSValue.WF, JSValue.WFElems])
    (by simp [JSValue.WF, JSValue.WFFields])

theorem lookup_mem (h : Heap) (a : Nat) (o : HObj) (hl : lookup h a = some o) :
    a ∈ List.map Prod.fst h := by
  unfold lookup at hl
  cases hf : List.find? (fun c => c.1 == a) h with
  | none => rw [hf] at hl; simp at hl
  | some c =>
      have hc := List.mem_of_find?_eq_some hf
      have := List.find?_some hf
      simp only [beq_iff_eq] at this
      rw [← this]
      exact List.mem_map_of_mem Prod.fst hc

theorem lookup_eq_none_of_not_mem (h : Heap) (a : Nat) (ha : a ∉ List.map Prod.fst h) :
    lookup h a = none := by
  unfold lookup
  cases hf : List.find? (fun c => c.1 == a) h with
  | none => rfl
  | some c =>
      exfalso
      have hc := List.mem_of_find?_eq_some hf
      have := List.find?_some hf
      simp only [beq_iff_eq] at this
      exact ha (this ▸ List.mem_map_of_mem Prod.fst hc)

theorem lookup_append_of_some (h x : Heap) (a : Nat) (o : HObj)
    (hl : lookup h a = some o) : lookup (h ++ x) a = some o := by
  induction h with
  | nil => simp [lookup] at hl
  | cons c rest ih =>
      unfold lookup at hl ⊢
      simp only [List.cons_append, List.find?] at hl ⊢
      cases hb : (c.1 == a) with
      | true => rw [hb] at hl; simpa using hl
      | false =>
          rw [hb] at hl
          have := ih hl
          unfold lookup at this
          exact this

theorem lookup_append_of_none_left (h x : Heap) (a : Nat)
    (hl : lookup h a = none) : lookup (h ++ x) a = lookup x a := by
  induction h with
  | nil => simp
  | cons c rest ih =>
      unfold lookup at hl ⊢
      simp only [List.cons_append, List.find?] at hl ⊢
      cases hb : (c.1 == a) with
      | true => rw [hb] at hl; simp at hl
      | false =>
          rw [hb] at hl
          have := ih hl
          unfold lookup at this
          exact this

theorem lookup_pres_midlist (h mid inner : Heap)
    (hdisj : ∀ a ∈ List.map Prod.fst inner, a ∉ List.map Prod.fst mid) :
    ∀ (a : Nat) (o : HObj), lookup (h ++ inner) a = some o →
      lookup (h ++ (mid ++ inner)) a = some o := by
  induction h with
  | nil =>
      intro a o hl
      simp only [List.nil_append] at hl ⊢
      have hmem := lookup_mem inner a o hl
      rw [lookup_append_of_none_left mid inner a
        (lookup_eq_none_of_not_mem mid a (hdisj a hmem))]
      exact hl
  | cons c rest ih =>
      intro a o hl
      simp only [List.cons_append] at hl ⊢
      unfold lookup at hl ⊢
      simp only [List.find?] at hl ⊢
      cases hb : (c.1 == a) with
      | true =>
          rw [hb] at hl
          simpa using hl
      | false =>
          rw [hb] at hl
          have h1 : lookup (rest ++ inner) a = some o := by
            unfold lookup
            simpa using hl
          have h2 := ih a o h1
          unfold lookup at h2
          simpa using h2

theorem lookup_update_ne (h : Heap) (a a' : Nat) (o : HObj) (hne : a' ≠ a) :
    lookup (heapUpdate h a o) a' = lookup h a' := by
  induction h with
  | nil => rfl
  | cons c rest ih =>
      by_cases hc : c.1 = a
      · have hb : (c.1 == a) = true := by simpa using hc
        have h1 : (a == a') = false := by simpa using fun hcc => hne hcc.symm
        have h2 : (c.1 == a') = false := by rw [hc]; exact h1
        simp only [heapUpdate, List.map_cons, hb, if_true, lookup, List.find?, h1, h2] at ih ⊢
        exact ih
      · have hb : (c.1 == a) = false := by simpa using hc
        simp only [heapUpdate, List.map_cons, hb, Bool.false_eq_true, if_false, lookup,
          List.find?] at ih ⊢
        cases hb2 : (c.1 == a') with
        | true => simp [hb2]
        | false => simpa [hb2] using ih

mutual

theorem readV_agree : ∀ (fuel : Nat) (h₁ h₂ : Heap) (v : HVal) (jv : JSValue),
    (∀ (a : Nat) (o : HObj), lookup h₁ a = some o → lookup h₂ a = some o) →
    readV fuel h₁ v = some jv → readV fuel h₂ v = some jv
  | 0, _, _, _, _, _, hr => by simp [readV] at hr
  | fuel + 1, h₁, h₂, v, jv, hag, hr => by
      cases v with
      | hnull => simpa [readV] using hr
      | hundefined => simpa [readV] using hr
      | hbool b => simpa [readV] using hr
      | hnum n => simpa [readV] using hr
      | hstr s => simpa [readV] using hr
      | href a =>
          simp only [readV] at hr ⊢
          cases hl : lookup h₁ a with
          | none => rw [hl] at hr; simp at hr
          | some o =>
              rw [hl] at hr
              rw [hag a o hl]
              cases o with
              | harr xs =>
                  simp only at hr ⊢
                  cases hre : readElems fuel h₁ xs with
                  | none => rw [hre] at hr; simp at hr
                  | some js =>
                      rw [hre] at hr
                      rw [readElems_agree fuel h₁ h₂ xs js hag hre]
                      exact hr
              | hobj fs =>
                  simp only at hr ⊢
                  cases hre : readFields fuel h₁ fs with
                  | none => rw [hre] at hr; simp at hr
                  | some js =>
                      rw [hre] at hr
                      rw [readFields_agree fuel h₁ h₂ fs js hag hre]
                      exact hr

theorem readElems_agree : ∀ (fuel : Nat) (h₁ h₂ : Heap) (xs : List HVal) (js : List JSValue),
    (∀ (a : Nat) (o : HObj), lookup h₁ a = some o → lookup h₂ a = some o) →
    readElems fuel h₁ xs = some js → readElems fuel h₂ xs = some js
  | 0, _, _, _, _, _, hr => by simp [readElems] at hr
  | fuel + 1, _, _, [], js, _, hr => by simpa [readElems] using hr
  | fuel + 1, h₁, h₂, x :: xs, js, hag, hr => by
      simp only [readElems] at hr ⊢
      cases hx : readV fuel h₁ x with
      | none => rw [hx] at hr; simp at hr
      | some j =>
          rw [hx] at hr
          rw [readV_agree fuel h₁ h₂ x j hag hx]
          cases hxs : readElems fuel h₁ xs with
          | none => rw [hxs] at hr; simp at hr
          | some js' =>
              rw [hxs] at hr
              rw [readElems_agree fuel h₁ h₂ xs js' hag hxs]
              exact hr

theorem readFields_agree : ∀ (fuel : Nat) (h₁ h₂ : Heap) (fs : List (String × HVal))
    (js : List (String × JSValue)),
    (∀ (a : Nat) (o : HObj), lookup h₁ a = some o → lookup h₂ a = some o) →
    readFields fuel h₁ fs = some js → readFields fuel h₂ fs = some js
  | 0, _, _, _, _, _, hr => by simp [readFields] at hr
  | fuel + 1, _, _, [], js, _, hr => by simpa [readFields] using hr
  | fuel + 1, h₁, h₂, (k, v) :: fs, js, hag, hr => by
      simp only [readFields] at hr ⊢
      cases hx : readV fuel h₁ v with
      | none => rw [hx] at hr; simp at hr
      | some j =>
          rw [hx] at hr
          rw [readV_agree fuel h₁ h₂ v j hag hx]
          cases hxs : readFields fuel h₁ fs with
          | none => rw [hxs] at hr; simp at hr
          | some js' =>
              rw [hxs] at hr
              rw [readFields_agree fuel h₁ h₂ fs js' hag hxs]
              exact hr

end

mutual

theorem cloneH_bounds : ∀ (fuel : Nat) (h : Heap) (v : HVal) (fresh : Nat)
    (v' : HVal) (cells : List (Nat × HObj)) (f' : Nat),
    cloneH fuel h v fresh = some (v', cells, f') →
    fresh ≤ f' ∧ ∀ a ∈ List.map Prod.fst cells, fresh ≤ a ∧ a < f'
  | 0, _, _, _, _, _, _, hc => by simp [cloneH] at hc
  | fuel + 1, h, v, fresh, v', cells, f', hc => by
      cases v with
      | href a =>
          simp only [cloneH] at hc
          cases hl : lookup h a with
          | none => rw [hl] at hc; simp at hc
          | some o =>
              rw [hl] at hc
              cases o with
              | harr xs =>
                  simp only at hc
                  cases hin : cloneElemsH fuel h xs (fresh + 1) with
                  | none => rw [hin] at hc; simp at hc
                  | some r =>
                      obtain ⟨xs', inner, f2⟩ := r
                      rw [hin] at hc
                      simp only [Option.some.injEq, Prod.mk.injEq] at hc
                      obtain ⟨hv', hcells, hf⟩ := hc
                      obtain ⟨hle, hb⟩ := cloneElemsH_bounds fuel h xs (fresh + 1) xs' inner f2 hin
                      subst hcells hf
                      constructor
                      · omega
                      · intro b hbm
                        simp only [List.map_cons, List.mem_cons] at hbm
                        rcases hbm with h1 | h1
                        · omega
                        · have := hb b h1
                          omega
              | hobj fs =>
                  simp only at hc
                  cases hin : cloneFieldsH fuel h fs (fresh + 1) with
                  | none => rw [hin] at hc; simp at hc
                  | some r =>
                      obtain ⟨fs', inner, f2⟩ := r
                      rw [hin] at hc
                      simp only [Option.some.injEq, Prod.mk.injEq] at hc
                      obtain ⟨hv', hcells, hf⟩ := hc
                      obtain ⟨hle, hb⟩ := cloneFieldsH_bounds fuel h fs (fresh + 1) fs' inner f2 hin
                      subst hcells hf
                      constructor
                      · omega
                      · intro b hbm
                        simp only [List.map_cons, List.mem_cons] at hbm
                        rcases hbm with h1 | h1
                        · omega
                        · have := hb b h1
                          omega
      | hnull => simp [cloneH] at hc; obtain ⟨_, h2, h3⟩ := hc; subst h2 h3; simp
      | hundefined => simp [cloneH] at hc; obtain ⟨_, h2, h3⟩ := hc; subst h2 h3; simp
      | hbool b => simp [cloneH] at hc; obtain ⟨_, h2, h3⟩ := hc; subst h2 h3; simp
      | hnum n => simp [cloneH] at hc; obtain ⟨_, h2, h3⟩ := hc; subst h2 h3; simp
      | hstr s => simp [cloneH] at hc; obtain ⟨_, h2, h3⟩ := hc; subst h2 h3; simp

theorem cloneElemsH_bounds : ∀ (fuel : Nat) (h : Heap) (xs : List HVal) (fresh : Nat)
    (xs' : List HVal) (cells : List (Nat × HObj)) (f' : Nat),
    cloneElemsH fuel h xs fresh = some (xs', cells, f') →
    fresh ≤ f' ∧ ∀ a ∈ List.map Prod.fst cells, fresh ≤ a ∧ a < f'
  | 0, _, _, _, _, _, _, hc => by simp [cloneElemsH] at hc
  | fuel + 1, h, [], fresh, xs', cells, f', hc => by
      simp only [cloneElemsH, Option.some.injEq, Prod.mk.injEq] at hc
      obtain ⟨_, h2, h3⟩ := hc
      subst h2 h3
      simp
  | fuel + 1, h, x :: xs, fresh, out, cells, f', hc => by
      simp only [cloneElemsH] at hc
      cases hx : cloneH fuel h x fresh with
      | none => rw [hx] at hc; simp at hc
      | some r =>
          obtain ⟨x', cx, f1⟩ := r
          rw [hx] at hc
          simp only at hc
          cases hxs : cloneElemsH fuel h xs f1 with
          | none => rw [hxs] at hc; simp at hc
          | some r2 =>
              obtain ⟨xs', cxs, f2⟩ := r2
              rw [hxs] at hc
              simp only [Option.some.injEq, Prod.mk.injEq] at hc
              obtain ⟨_, h2, h3⟩ := hc
              subst h2 h3
              obtain ⟨hle1, hb1⟩ := cloneH_bounds fuel h x fresh x' cx f1 hx
              obtain ⟨hle2, hb2⟩ := cloneElemsH_bounds fuel h xs f1 xs' cxs f2 hxs
              constructor
              · omega
              · intro b hbm
                rw [List.map_append, List.mem_append] at hbm
                rcases hbm with h1 | h1
                · have := hb1 b h1
                  omega
                · have := hb2 b h1
                  omega

theorem cloneFieldsH_bounds : ∀ (fuel : Nat) (h : Heap) (fs : List (String × HVal)) (fresh : Nat)
    (fs' : List (String × HVal)) (cells : List (Nat × HObj)) (f' : Nat),
    cloneFieldsH fuel h fs fresh = some (fs', cells, f') →
    fresh ≤ f' ∧ ∀ a ∈ List.map Prod.fst cells, fresh ≤ a ∧ a < f'
  | 0, _, _, _, _, _, _, hc => by simp [cloneFieldsH] at hc
  | fuel + 1, h, [], fresh, fs', cells, f', hc => by
      simp only [cloneFieldsH, Option.some.injEq, Prod.mk.injEq] at hc
      obtain ⟨_, h2, h3⟩ := hc
      subst h2 h3
      simp
  | fuel + 1, h, (k, v) :: fs, fresh, out, cells, f', hc => by
      simp only [cloneFieldsH] at hc
      cases hx : cloneH fuel h v fresh with
      | none => rw [hx] at hc; simp at hc
      | some r =>
          obtain ⟨v', cv, f1⟩ := r
          rw [hx] at hc
          simp only at hc
          cases hxs : cloneFieldsH fuel h fs f1 with
          | none => rw [hxs] at hc; simp at hc
          | some r2 =>
              obtain ⟨fs', cfs, f2⟩ := r2
              rw [hxs] at hc
              simp only [Option.some.injEq, Prod.mk.injEq] at hc
              obtain ⟨_, h2, h3⟩ := hc
              subst h2 h3
              obtain ⟨hle1, hb1⟩ := cloneH_bounds fuel h v fresh v' cv f1 hx
              obtain ⟨hle2, hb2⟩ := cloneFieldsH_bounds fuel h fs f1 fs' cfs f2 hxs
              constructor
              · omega
              · intro b hbm
                rw [List.map_append, List.mem_append] at hbm
                rcases hbm with h1 | h1
                · have := hb1 b h1
                  omega
                · have := hb2 b h1
                  omega

end

mutual

theorem cloneH_read : ∀ (fuel : Nat) (h : Heap) (v : HVal) (fresh : Nat)
    (v' : HVal) (cells : List (Nat × HObj)) (f' : Nat),
    (∀ a ∈ List.map Prod.fst h, a < fresh) →
    cloneH fuel h v fresh = some (v', cells, f') →
    ∀ (n : Nat) (jv : JSValue), readV n h v = some jv → readV n (h ++ cells) v' = some jv
  | 0, _, _, _, _, _, _, _, hc => by simp [cloneH] at hc
  | fuel + 1, h, v, fresh, v', cells, f', hfresh, hc => by
      cases v with
      | hnull =>
          simp only [cloneH, Option.some.injEq, Prod.mk.injEq] at hc
          obtain ⟨h1, h2, _⟩ := hc
          subst h1 h2
          intro n jv hr
          simpa using hr
      | hundefined =>
          simp only [cloneH, Option.some.injEq, Prod.mk.injEq] at hc
          obtain ⟨h1, h2, _⟩ := hc
          subst h1 h2
          intro n jv hr
          simpa using hr
      | hbool b =>
          simp only [cloneH, Option.some.injEq, Prod.mk.injEq] at hc
          obtain ⟨h1, h2, _⟩ := hc
          subst h1 h2
          intro n jv hr
          simpa using hr
      | hnum m =>
          simp only [cloneH, Option.some.injEq, Prod.mk.injEq] at hc
          obtain ⟨h1, h2, _⟩ := hc
          subst h1 h2
          intro n jv hr
          simpa using hr
      | hstr s =>
          simp only [cloneH, Option.some.injEq, Prod.mk.injEq] at hc
          obtain ⟨h1, h2, _⟩ := hc
          subst h1 h2
          intro n jv hr
          simpa using hr
      | href a =>
          simp only [cloneH] at hc
          cases hl : lookup h a with
          | none => rw [hl] at hc; simp at hc
          | some o =>
              rw [hl] at hc
              have hfnotin : fresh ∉ List.map Prod.fst h := by
                intro hmem
                have := hfresh fresh hmem
                omega
              cases o with
              | harr xs =>
                  simp only at hc
                  cases hin : cloneElemsH fuel h xs (fresh + 1) with
                  | none => rw [hin] at hc; simp at hc
                  | some r =>
                      obtain ⟨xs', inner, f2⟩ := r
                      rw [hin] at hc
                      simp only [Option.some.injEq, Prod.mk.injEq] at hc
                      obtain ⟨hv', hcells, _⟩ := hc
                      subst hv' hcells
                      intro n jv hr
                      cases n with
                      | zero => simp [readV] at hr
                      | succ m =>
                          simp only [readV] at hr ⊢
                          rw [hl] at hr
                          simp only at hr
                          cases hre : readElems m h xs with
                          | none => rw [hre] at hr; simp at hr
                          | some js =>
                              rw [hre] at hr
                              have hlook : lookup (h ++ (fresh, HObj.harr xs') :: inner) fresh
                                  = some (HObj.harr xs') := by
                                rw [lookup_append_of_none_left h _ fresh
                                  (lookup_eq_none_of_not_mem h fresh hfnotin)]
                                unfold lookup
                                simp [List.find?]
                              obtain ⟨_, hbnd⟩ :=
                                cloneElemsH_bounds fuel h xs (fresh + 1) xs' inner f2 hin
                              have hinner := cloneElemsH_read fuel h xs (fresh + 1) xs' inner f2
                                (fun a ha => by have := hfresh a ha; omega) hin m js hre
                              have hpres : ∀ (b : Nat) (oo : HObj),
                                  lookup (h ++ inner) b = some oo →
                                  lookup (h ++ (fresh, HObj.harr xs') :: inner) b = some oo := by
                                intro b oo hb
                                have := lookup_pres_midlist h [(fresh, HObj.harr xs')] inner
                                  (fun c hcm => by
                                    have := hbnd c hcm
                                    simp only [List.map_cons, List.map_nil, List.mem_singleton]
                                    omega) b oo hb
                                simpa using this
                              have hfinal := readElems_agree m (h ++ inner)
                                (h ++ (fresh, HObj.harr xs') :: inner) xs' js hpres hinner
                              rw [hlook]
                              simp only [hfinal]
                              simpa using hr
              | hobj fs =>
                  simp only at hc
                  cases hin : cloneFieldsH fuel h fs (fresh + 1) with
                  | none => rw [hin] at hc; simp at hc
                  | some r =>
                      obtain ⟨fs', inner, f2⟩ := r
                      rw [hin] at hc
                      simp only [Option.some.injEq, Prod.mk.injEq] at hc
                      obtain ⟨hv', hcells, _⟩ := hc
                      subst hv' hcells
                      intro n jv hr
                      cases n with
                      | zero => simp [readV] at hr
                      | succ m =>
                          simp only [readV] at hr ⊢
                          rw [hl] at hr
                          simp only at hr
                          cases hre : readFields m h fs with
                          | none => rw [hre] at hr; simp at hr
                          | some js =>
                              rw [hre] at hr
                              have hlook : lookup (h ++ (fresh, HObj.hobj fs') :: inner) fresh
                                  = some (HObj.hobj fs') := by
                                rw [lookup_append_of_none_left h _ fresh
                                  (lookup_eq_none_of_not_mem h fresh hfnotin)]
                                unfold lookup
                                simp [List.find?]
                              obtain ⟨_, hbnd⟩ :=
                                cloneFieldsH_bounds fuel h fs (fresh + 1) fs' inner f2 hin
                              have hinner := cloneFieldsH_read fuel h fs (fresh + 1) fs' inner f2
                                (fun a ha => by have := hfresh a ha; omega) hin m js hre
                              have hpres : ∀ (b : Nat) (oo : HObj),
                                  lookup (h ++ inner) b = some oo →
                                  lookup (h ++ (fresh, HObj.hobj fs') :: inner) b = some oo := by
                                intro b oo hb
                                have := lookup_pres_midlist h [(fresh, HObj.hobj fs')] inner
                                  (fun c hcm => by
                                    have := hbnd c hcm
                                    simp only [List.map_cons, List.map_nil, List.mem_singleton]
                                    omega) b oo hb
                                simpa using this
                              have hfinal := readFields_agree m (h ++ inner)
                                (h ++ (fresh, HObj.hobj fs') :: inner) fs' js hpres hinner
                              rw [hlook]
                              simp only [hfinal]
                              simpa using hr

theorem cloneElemsH_read : ∀ (fuel : Nat) (h : Heap) (xs : List HVal) (fresh : Nat)
    (xs' : List HVal) (cells : List (Nat × HObj)) (f' : Nat),
    (∀ a ∈ List.map Prod.fst h, a < fresh) →
    cloneElemsH fuel h xs fresh = some (xs', cells, f') →
    ∀ (n : Nat) (js : List JSValue), readElems n h xs = some js →
      readElems n (h ++ cells) xs' = some js
  | 0, _, _, _, _, _, _, _, hc => by simp [cloneElemsH] at hc
  | fuel + 1, h, [], fresh, xs', cells, f', _, hc => by
      simp only [cloneElemsH, Option.some.injEq, Prod.mk.injEq] at hc
      obtain ⟨h1, h2, _⟩ := hc
      subst h1 h2
      intro n js hr
      cases n with
      | zero => simp [readElems] at hr
      | succ m => simpa [readElems] using hr
  | fuel + 1, h, x :: xs, fresh, out, cells, f', hfresh, hc => by
      simp only [cloneElemsH] at hc
      cases hx : cloneH fuel h x fresh with
      | none => rw [hx] at hc; simp at hc
      | some r =>
          obtain ⟨x', cx, f1⟩ := r
          rw [hx] at hc
          simp only at hc
          cases hxs : cloneElemsH fuel h xs f1 with
          | none => rw [hxs] at hc; simp at hc
          | some r2 =>
              obtain ⟨xs', cxs, f2⟩ := r2
              rw [hxs] at hc
              simp only [Option.some.injEq, Prod.mk.injEq] at hc
              obtain ⟨h1, h2, _⟩ := hc
              subst h1 h2
              intro n js hr
              cases n with
              | zero => simp [readElems] at hr
              | succ m =>
                  simp only [readElems] at hr ⊢
                  cases hrx : readV m h x with
                  | none => rw [hrx] at hr; simp at hr
                  | some j =>
                      rw [hrx] at hr
                      simp only at hr
                      cases hrxs : readElems m h xs with
                      | none => rw [hrxs] at hr; simp at hr
                      | some js' =>
                          rw [hrxs] at hr
                          obtain ⟨hle1, hb1⟩ := cloneH_bounds fuel h x fresh x' cx f1 hx
                          obtain ⟨hle2, hb2⟩ := cloneElemsH_bounds fuel h xs f1 xs' cxs f2 hxs
                          have hxread := cloneH_read fuel h x fresh x' cx f1 hfresh hx m j hrx
                          have hxread2 : readV m (h ++ (cx ++ cxs)) x' = some j := by
                            have hpres : ∀ (b : Nat) (oo : HObj),
                                lookup (h ++ cx) b = some oo →
                                lookup (h ++ (cx ++ cxs)) b = some oo := by
                              intro b oo hb
                              rw [← List.append_assoc]
                              exact lookup_append_of_some (h ++ cx) cxs b oo hb
                            exact readV_agree m (h ++ cx) (h ++ (cx ++ cxs)) x' j hpres hxread
                          have hxsread := cloneElemsH_read fuel h xs f1 xs' cxs f2
                            (fun a ha => by have := hfresh a ha; omega) hxs m js' hrxs
                          have hxsread2 : readElems m (h ++ (cx ++ cxs)) xs' = some js' := by
                            have hpres : ∀ (b : Nat) (oo : HObj),
                                lookup (h ++ cxs) b = some oo →
                                lookup (h ++ (cx ++ cxs)) b = some oo :=
                              lookup_pres_midlist h cx cxs
                                (fun c hcm hcx => by
                                  have hc1 := hb2 c hcm
                                  have hc2 := hb1 c hcx
                                  omega)
                            exact readElems_agree m (h ++ cxs) (h ++ (cx ++ cxs)) xs' js'
                              hpres hxsread
                          rw [hxread2]
                          simp only
                          rw [hxsread2]
                          exact hr

theorem cloneFieldsH_read : ∀ (fuel : Nat) (h : Heap) (fs : List (String × HVal)) (fresh : Nat)
    (fs' : List (String × HVal)) (cells : List (Nat × HObj)) (f' : Nat),
    (∀ a ∈ List.map Prod.fst h, a < fresh) →
    cloneFieldsH fuel h fs fresh = some (fs', cells, f') →
    ∀ (n : Nat) (js : List (String × JSValue)), readFields n h fs = some js →
      readFields n (h ++ cells) fs' = some js
  | 0, _, _, _, _, _, _, _, hc => by simp [cloneFieldsH] at hc
  | fuel + 1, h, [], fresh, fs', cells, f', _, hc => by
      simp only [cloneFieldsH, Option.some.injEq, Prod.mk.injEq] at hc
      obtain ⟨h1, h2, _⟩ := hc
      subst h1 h2
      intro n js hr
      cases n with
      | zero => simp [readFields] at hr
      | succ m => simpa [readFields] using hr
  | fuel + 1, h, (k, v) :: fs, fresh, out, cells, f', hfresh, hc => by
      simp only [cloneFieldsH] at hc
      cases hx : cloneH fuel h v fresh with
      | none => rw [hx] at hc; simp at hc
      | some r =>
          obtain ⟨v', cv, f1⟩ := r
          rw [hx] at hc
          simp only at hc
          cases hxs : cloneFieldsH fuel h fs f1 with
          | none => rw [hxs] at hc; simp at hc
          | some r2 =>
              obtain ⟨fs', cfs, f2⟩ := r2
              rw [hxs] at hc
              simp only [Option.some.injEq, Prod.mk.injEq] at hc
              obtain ⟨h1, h2, _⟩ := hc
              subst h1 h2
              intro n js hr
              cases n with
              | zero => simp [readFields] at hr
              | succ m =>
                  simp only [readFields] at hr ⊢
                  cases hrx : readV m h v with
                  | none => rw [hrx] at hr; simp at hr
                  | some j =>
                      rw [hrx] at hr
                      simp only at hr
                      cases hrxs : readFields m h fs with
                      | none => rw [hrxs] at hr; simp at hr
                      | some js' =>
                          rw [hrxs] at hr
                          obtain ⟨hle1, hb1⟩ := cloneH_bounds fuel h v fresh v' cv f1 hx
                          obtain ⟨hle2, hb2⟩ := cloneFieldsH_bounds fuel h fs f1 fs' cfs f2 hxs
                          have hxread := cloneH_read fuel h v fresh v' cv f1 hfresh hx m j hrx
                          have hxread2 : readV m (h ++ (cv ++ cfs)) v' = some j := by
                            have hpres : ∀ (b : Nat) (oo : HObj),
                                lookup (h ++ cv) b = some oo →
                                lookup (h ++ (cv ++ cfs)) b = some oo := by
                              intro b oo hb
                              rw [← List.append_assoc]
                              exact lookup_append_of_some (h ++ cv) cfs b oo hb
                            exact readV_agree m (h ++ cv) (h ++ (cv ++ cfs)) v' j hpres hxread
                          have hxsread := cloneFieldsH_read fuel h fs f1 fs' cfs f2
                            (fun a ha => by have := hfresh a ha; omega) hxs m js' hrxs
                          have hxsread2 : readFields m (h ++ (cv ++ cfs)) fs' = some js' := by
                            have hpres : ∀ (b : Nat) (oo : HObj),
                                lookup (h ++ cfs) b = some oo →
                                lookup (h ++ (cv ++ cfs)) b = some oo :=
                              lookup_pres_midlist h cv cfs
                                (fun c hcm hcx => by
                                  have hc1 := hb2 c hcm
                                  have hc2 := hb1 c hcx
                                  omega)
                            exact readFields_agree m (h ++ cfs) (h ++ (cv ++ cfs)) fs' js'
                              hpres hxsread
                          rw [hxread2]
                          simp only
                          rw [hxsread2]
                          exact hr

end

/-- Claim C10 (confirmed): `getHistory` maps `deepClone` over the internal
history, and on the heap model a clone of the history entries allocates only
fresh cells — addresses disjoint from the store's own heap — while reading
back structurally equal to the originals; consequently mutating any cell of
the returned clones (or the returned list itself, which is likewise a fresh
array) leaves the readback of every internal root — each history entry, the
live store value, and trivially the integer cursor — unchanged. -/
theorem getHistory_fresh_clones :
    (∀ st : DataStore, getHistory st = st.history.map fun e => deepClone e)
    ∧ (∀ (fuel : Nat) (h : Heap) (history : List HVal) (fresh f' : Nat)
        (out : List HVal) (cells : List (Nat × HObj)),
        (∀ a ∈ List.map Prod.fst h, a < fresh) →
        cloneElemsH fuel h history fresh = some (out, cells, f') →
        (∀ a ∈ List.map Prod.fst cells, a ∉ List.map Prod.fst h)
        ∧ (∀ (n : Nat) (jvs : List JSValue), readElems n h history = some jvs →
            readElems n (h ++ cells) out = some jvs)
        ∧ (∀ (addr : Nat) (o : HObj), addr ∈ List.map Prod.fst cells →
            ∀ (v : HVal) (n : Nat) (jv : JSValue), readV n h v = some jv →
              readV n (heapUpdate (h ++ cells) addr o) v = some jv)
        ∧ (∀ (addr : Nat) (o : HObj), addr ∈ List.map Prod.fst cells →
            ∀ (n : Nat) (jvs : List JSValue), readElems n h history = some jvs →
              readElems n (heapUpdate (h ++ cells) addr o) history = some jvs)) := by
  constructor
  · intro st
    rfl
  · intro fuel h history fresh f' out cells hfresh hclone
    obtain ⟨hle, hbnd⟩ := cloneElemsH_bounds fuel h history fresh out cells f' hclone
    have hpres : ∀ (addr : Nat) (o : HObj), addr ∈ List.map Prod.fst cells →
        ∀ (b : Nat) (oo : HObj), lookup h b = some oo →
          lookup (heapUpdate (h ++ cells) addr o) b = some oo := by
      intro addr o haddr b oo hb
      have hbh := lookup_mem h b oo hb
      have hbf := hfresh b hbh
      have haf := (hbnd addr haddr).1
      rw [lookup_update_ne (h ++ cells) addr b o (by omega)]
      exact lookup_append_of_some h cells b oo hb
    refine ⟨?_, ?_, ?_, ?_⟩
    · intro a hac hah
      have h1 := (hbnd a hac).1
      have h2 := hfresh a hah
      omega
    · intro n jvs hr
      exact cloneElemsH_read fuel h history fresh out cells f' hfresh hclone n jvs hr
    · intro addr o haddr v n jv hr
      exact readV_agree n h (heapUpdate (h ++ cells) addr o) v jv (hpres addr o haddr) hr
    · intro addr o haddr n jvs hr
      exact readElems_agree n h (heapUpdate (h ++ cells) addr o) history jvs
        (hpres addr o haddr) hr

/-- Claim C10, witness: a store heap with one record `{a: 1}` at address 0
and history roots `[ref 0, 2]`; cloning allocates only the fresh address 1,
the clones read back as `[{a: 1}, 2]`, and overwriting the cloned cell with
`{a: 999}` leaves the internal history readback untouched. -/
theorem getHistory_fresh_clones_witness :
    getHistory ⟨.num 0, [.num 0], 0, none, 0⟩ = [deepClone (.num 0)]
    ∧ (1 : Nat) ∉ List.map Prod.fst ([(0, HObj.hobj [("a", HVal.hnum 1)])] : Heap)
    ∧ readElems 4 ([(0, .hobj [("a", .hnum 1)])] ++ [(1, .hobj [("a", .hnum 1)])])
        [.href 1, .hnum 2] = some [.obj [("a", .num 1)], .num 2]
    ∧ readElems 4 (heapUpdate ([(0, .hobj [("a", .hnum 1)])] ++ [(1, .hobj [("a", .hnum 1)])])
        1 (.hobj [("a", .hnum 999)])) [.href 0, .hnum 2]
        = some [.obj [("a", .num 1)], .num 2] := by
  have h := getHistory_fresh_clones
  have h2 := h.2 5 [(0, .hobj [("a", .hnum 1)])] [.href 0, .hnum 2] 1 2
    [.href 1, .hnum 2] [(1, .hobj [("a", .hnum 1)])]
    (by decide) rfl
  exact ⟨h.1 ⟨.num 0, [.num 0], 0, none, 0⟩, h2.1 1 (by decide),
    h2.2.1 4 [.obj [("a", .num 1)], .num 2] rfl,
    h2.2.2.2 1 (.hobj [("a", .hnum 999)]) (by decide) 4 [.obj [("a", .num 1)], .num 2] rfl⟩
